import Mathlib

/-!
# wm::ThreadPool (src/parallel/ThreadPool.h, src/parallel/main.cpp)

A shallow embedding of the thread pool as an interleaving transition system.

* The members `workers_`, `tasks_` and `stop_` of the class are fields of the state.
* `mutex_` / `condition_` are not represented as data: every block of the source that runs
  under `std::unique_lock` on `mutex_` is one atomic step, and
  `condition_.wait(lock, pred)` is a step that is enabled exactly when `pred` holds.
  The read of `stop_` in `while (!stop_)` (line 38) is outside the lock and is a step of its own.
* Threads are program counters; a schedule is a list of `Action`s.
* A job body runs atomically against the client memory `σ` (in main.cpp each body holds the
  client mutex `m` for its whole duration) and either returns a value or throws.
* `std::function<void()>` erases the result type of a job; here the callables of one pool
  share the result type `α` and the exception type `ε` (a sum type gives a mixed pool).
* There is one client thread; it calls the member functions one after the other.
* `ε` is the type of exception objects. It contains the `std::future_error` with code
  `broken_promise` that the library stores in the shared state of a packaged task which is
  destroyed before it was called (class `BrokenPromise`).
-/

namespace wm

/-- Exceptions that can reach the caller of a member function. -/
inductive Error
  /-- Thrown by `std::thread::join` when the thread is not joinable. -/
  | system_error
  /-- Named by the specification; the source has no site that throws it. -/
  | ConfigurationError
  /-- Named by the specification; the source has no site that throws it. -/
  | PoolClosedError
  deriving DecidableEq, Repr

/-- The callable produced by `std::bind(f, args...)` (line 74): run against the client
memory, it yields the new memory and either the returned value or the thrown exception. -/
abbrev Callable (σ ε α : Type) := σ → σ × Except ε α

/-- An element of `tasks_`: the lambda `[task] { (*task)(); }` of lines 80-82, which holds the
shared `std::packaged_task`. `chan` identifies the shared state of that packaged task (the
result channel read by the future), `fn` is the bound callable. -/
structure PackagedTask (σ ε α : Type) where
  chan : Nat
  fn : Callable σ ε α

/-- Control point of a worker thread inside the lambda of lines 36-53. -/
inductive WorkerPc (σ ε α : Type)
  /-- Line 38: about to evaluate `while (!stop_)`. -/
  | loopHead
  /-- Lines 42-43: about to take the lock and wait on the condition. -/
  | waiting
  /-- Line 51: holds the task it dequeued and is about to call it. -/
  | running (task : PackagedTask σ ε α)
  /-- The thread function has returned. -/
  | exited

/-- An element of `workers_`: a `std::thread` object together with the control point of the
thread it started. `joinable` is `std::thread::joinable()`. -/
structure Worker (σ ε α : Type) where
  pc : WorkerPc σ ε α
  joinable : Bool

/-- Control point of the client thread that owns the pool. -/
inductive Caller
  /-- Outside every member function, pool alive. -/
  | idle
  /-- Inside `stop()` at the loop of lines 96-98, about to join `workers_[k]`;
  `dtor` tells whether `stop()` was called from the destructor. -/
  | joining (k : Nat) (dtor : Bool)
  /-- The last member function call left with exception `e`. -/
  | raised (e : Error)
  /-- The destructor has returned. -/
  | destroyed
  deriving DecidableEq, Repr

/-- The client may start a new call when it is outside every member function. -/
def Caller.free : Caller → Bool
  | .idle => true
  | .raised _ => true
  | _ => false

/-- State of the pool and of its environment. -/
structure ThreadPool (σ ε α : Type) where
  /-- Member `workers_`. -/
  workers_ : List (Worker σ ε α)
  /-- Member `tasks_`, head of the list is `front()`. -/
  tasks_ : List (PackagedTask σ ε α)
  /-- Member `stop_`. -/
  stop_ : Bool
  /-- Client memory that job bodies read and write. -/
  mem : σ
  /-- Shared states of the packaged tasks: `none` is "not ready". -/
  chans : Nat → Option (Except ε α)
  /-- Number of shared states allocated so far. -/
  nchan : Nat
  /-- Control point of the client thread. -/
  caller : Caller

variable {σ ε α : Type}

/-- Width of `size_t` is 64 bits: the loop bound `i < size` of line 34 compares a `size_t`
with an `int`, so `size` is converted to `size_t`. -/
def SIZE_T_MOD : Int := 2 ^ 64

/-- Number of iterations of `for (size_t i = 0; i < size; ++i)` (line 34). -/
def spawnCount (size : Int) : Nat := (size % SIZE_T_MOD).toNat

/-- The constructor `ThreadPool::ThreadPool(int size)` (a structure and a function of one
name clash in Lean, hence `ctor`), lines 32-57: `stop_` is false, the
queue is empty and each loop iteration starts one thread at the head of its loop. The source
has no throw statement. `mem` is the initial client memory. -/
def ThreadPool.ctor (size : Int) (mem : σ) : Except Error (ThreadPool σ ε α) :=
  .ok { workers_ := List.replicate (spawnCount size) ⟨.loopHead, true⟩
        tasks_ := []
        stop_ := false
        mem := mem
        chans := fun _ => none
        nchan := 0
        caller := .idle }

/-- The pool a client holds after `ThreadPool pool(size);`: the value the constructor
returns (the `error` branch is never taken, the constructor has no throw). -/
def ThreadPool.init (size : Int) (mem : σ) : ThreadPool σ ε α :=
  match (ThreadPool.ctor size mem : Except Error (ThreadPool σ ε α)) with
  | .ok pool => pool
  | .error _ => ⟨[], [], false, mem, fun _ => none, 0, .raised .ConfigurationError⟩

/-- A `std::future`: a reference to the shared state of one packaged task. -/
structure Future where
  chan : Nat
  deriving DecidableEq, Repr

/-- Outcome of `future::get()`: `none` while the shared state is not ready (the call blocks),
otherwise the stored value or the stored exception, which `get()` rethrows. -/
def Future.get (fut : Future) (st : ThreadPool σ ε α) : Option (Except ε α) :=
  st.chans fut.chan

/-- The member function `add`, lines 65-87: `make_shared` allocates a new packaged task with a
new shared state, `get_future` gives the future of that state, and under the lock the
lambda is put at the back of `tasks_`. There is no test of `stop_` and no throw. -/
def ThreadPool.add (f : Callable σ ε α) (st : ThreadPool σ ε α) :
    Except Error (Future × ThreadPool σ ε α) :=
  let task : PackagedTask σ ε α := ⟨st.nchan, f⟩
  let res : Future := ⟨st.nchan⟩
  .ok (res, { st with nchan := st.nchan + 1, tasks_ := st.tasks_ ++ [task] })

/-- What the locked block of the worker (lines 41-49) hands back. -/
inductive PopResult (σ ε α : Type)
  | job (task : PackagedTask σ ε α)
  | shutdown

/-- The locked block of the worker, lines 42-48, on the queue and the flag:
`wait` passes only when `stop_ || !tasks_.empty()` (otherwise the thread stays blocked,
`none`); then `if (stop_ && tasks_.empty()) return;`, else `front()` and `pop()`. -/
def pop_blocking (tasks_ : List (PackagedTask σ ε α)) (stop_ : Bool) :
    Option (PopResult σ ε α × List (PackagedTask σ ε α)) :=
  if stop_ || !tasks_.isEmpty then
    if stop_ && tasks_.isEmpty then
      some (.shutdown, tasks_)
    else
      match tasks_ with
      | task :: rest => some (.job task, rest)
      | [] => none
  else
    none

/-- The call `(*task)()` of line 81, `std::packaged_task::operator()`: the callable runs, and
its value, or the exception it throws, is stored in the shared state of this task. Nothing
is thrown to the caller. -/
def PackagedTask.invoke (task : PackagedTask σ ε α) (st : ThreadPool σ ε α) :
    ThreadPool σ ε α :=
  match task.fn st.mem with
  | (mem, .ok v) =>
    { st with mem := mem, chans := Function.update st.chans task.chan (some (.ok v)) }
  | (mem, .error e) =>
    { st with mem := mem, chans := Function.update st.chans task.chan (some (.error e)) }

/-- One atomic step of a worker thread at control point `pc`; `none` when the thread is
blocked or has returned. -/
def worker_step (pc : WorkerPc σ ε α) (st : ThreadPool σ ε α) :
    Option (WorkerPc σ ε α × ThreadPool σ ε α) :=
  match pc with
  | .loopHead => if !st.stop_ then some (.waiting, st) else some (.exited, st)
  | .waiting =>
    match pop_blocking st.tasks_ st.stop_ with
    | none => none
    | some (.shutdown, rest) => some (.exited, { st with tasks_ := rest })
    | some (.job task, rest) => some (.running task, { st with tasks_ := rest })
  | .running task => some (.loopHead, task.invoke st)
  | .exited => none

/-- The exception object `std::future_error(std::future_errc::broken_promise)`. -/
class BrokenPromise (ε : Type) where
  broken_promise : ε

instance : BrokenPromise String := ⟨"broken promise"⟩

instance : BrokenPromise Unit := ⟨()⟩

variable [BrokenPromise ε]

/-- Destruction of a packaged task that was never called, `~packaged_task()`: the shared
state is abandoned; if it is not ready, `broken_promise` is stored in it and it becomes
ready. -/
def abandon (chans : Nat → Option (Except ε α)) (task : PackagedTask σ ε α) :
    Nat → Option (Except ε α) :=
  match chans task.chan with
  | none => Function.update chans task.chan (some (.error BrokenPromise.broken_promise))
  | some _ => chans

/-- Destruction of the elements of a queue, front to back. -/
def abandonAll :
    List (PackagedTask σ ε α) → (Nat → Option (Except ε α)) → Nat → Option (Except ε α)
  | [], chans => chans
  | task :: rest, chans => abandonAll rest (abandon chans task)

/-- Destruction of the members, which follows the body of the destructor: `tasks_` is
destroyed, and with it every queued lambda, the last owner of its packaged task, so each
queued task is abandoned. The threads of `workers_` are not affected by the destruction of
their thread objects; the list is kept as the record of the threads. -/
def ThreadPool.destroyMembers (st : ThreadPool σ ε α) : ThreadPool σ ε α :=
  { st with tasks_ := [], chans := abandonAll st.tasks_ st.chans }

/-- End of a step of the client: when the step has ended the body of the destructor
(the client is at `destroyed`), the members are destroyed. -/
def ThreadPool.unwind (st : ThreadPool σ ε α) : ThreadPool σ ε α :=
  match st.caller with
  | .destroyed => st.destroyMembers
  | _ => st

/-- Control point of the client after loop iteration `k - 1` of lines 96-98, with `n`
workers: the next join, or the return from `stop()` (and from the destructor). -/
def afterJoin (k n : Nat) (dtor : Bool) : Caller :=
  if k < n then .joining k dtor else if dtor then .destroyed else .idle

/-- Lines 91-95 of `stop()`: under the lock `stop_` becomes true (and all waiters are
notified); the client then enters the join loop. With no worker the loop is empty and
`stop()` returns (into the end of the destructor, if called from there). -/
def ThreadPool.stop (dtor : Bool) (st : ThreadPool σ ε α) : ThreadPool σ ε α :=
  ThreadPool.unwind { st with stop_ := true, caller := afterJoin 0 st.workers_.length dtor }

/-- Whether the thread has returned. -/
def WorkerPc.isExited : WorkerPc σ ε α → Bool
  | .exited => true
  | _ => false

/-- One iteration `worker.join()` of the loop of lines 96-98. `std::thread::join` throws
`std::system_error` when the thread is not joinable; otherwise it blocks (`none`) until the
thread has returned and then makes the thread object non-joinable. After the last iteration
`stop()` returns (into the end of the destructor, if called from there). -/
def ThreadPool.join (st : ThreadPool σ ε α) : Option (ThreadPool σ ε α) :=
  match st.caller with
  | .joining k dtor =>
    match st.workers_[k]? with
    | none => none
    | some w =>
      if !w.joinable then
        some { st with caller := .raised .system_error }
      else if w.pc.isExited then
        some (ThreadPool.unwind
          { st with workers_ := st.workers_.set k { w with joinable := false }
                    caller := afterJoin (k + 1) st.workers_.length dtor })
      else
        none
  | _ => none

/-- The destructor, lines 59-64: the body `if (!stop_) stop();`, followed by the destruction
of the members. When `stop()` is called it may block in its join loop; the members are
destroyed when it has returned (`ThreadPool.unwind`). -/
def ThreadPool.dtor (st : ThreadPool σ ε α) : ThreadPool σ ε α :=
  if !st.stop_ then ThreadPool.stop true st
  else ThreadPool.unwind { st with caller := .destroyed }

/-- The atomic actions of the system. -/
inductive Action (σ ε α : Type)
  /-- The client calls `add(f, args...)`. -/
  | add (f : Callable σ ε α)
  /-- The client calls `stop()` and runs lines 91-95. -/
  | stop
  /-- The client, inside `stop()`, runs one iteration of the join loop. -/
  | join
  /-- The client destroys the pool. -/
  | destroy
  /-- Worker `i` takes its next step. -/
  | worker (i : Nat)

/-- The transition function: `none` when the action is not enabled. -/
def step (a : Action σ ε α) (st : ThreadPool σ ε α) : Option (ThreadPool σ ε α) :=
  match a with
  | .add f =>
    if st.caller.free then
      match ThreadPool.add f st with
      | .ok (_, st1) => some { st1 with caller := .idle }
      | .error e => some { st with caller := .raised e }
    else none
  | .stop => if st.caller.free then some (ThreadPool.stop false st) else none
  | .join => ThreadPool.join st
  | .destroy => if st.caller.free then some (ThreadPool.dtor st) else none
  | .worker i =>
    match st.workers_[i]? with
    | none => none
    | some w =>
      match worker_step w.pc st with
      | none => none
      | some (pc, st1) => some { st1 with workers_ := st1.workers_.set i { w with pc := pc } }

/-- Run a schedule; `none` when one of its actions is not enabled. -/
def exec : List (Action σ ε α) → ThreadPool σ ε α → Option (ThreadPool σ ε α)
  | [], st => some st
  | a :: rest, st =>
    match step a st with
    | none => none
    | some st1 => exec rest st1

/-- The observable summary of a worker: 0 at the loop head, 1 waiting, 2 running, 3 returned;
with the channel of the task it holds. -/
def WorkerPc.view : WorkerPc σ ε α → Nat × Option Nat
  | .loopHead => (0, none)
  | .waiting => (1, none)
  | .running task => (2, some task.chan)
  | .exited => (3, none)

/-- Every worker has returned and has been joined (the STOPPED state of the specification). -/
def AllJoined (st : ThreadPool σ ε α) : Prop :=
  ∀ w ∈ st.workers_, w.pc.isExited = true ∧ w.joinable = false

/-- Workers below index `k` have returned and have been joined, workers from `k` on have not
been joined: the situation inside the join loop of `stop()` before iteration `k`. -/
def JoinedBelow (k : Nat) (ws : List (Worker σ ε α)) : Prop :=
  ∀ j w, ws[j]? = some w →
    (j < k → w.pc.isExited = true ∧ w.joinable = false) ∧ (k ≤ j → w.joinable = true)

/-- The join discipline of the pool, an invariant of every execution: before any `stop()` no
worker has been joined; a `stop()` entered on a fresh pool joins the workers in order; once
a `stop()` has returned every worker has returned and been joined. -/
def Inv (st : ThreadPool σ ε α) : Prop :=
  match st.caller with
  | .joining k d =>
    st.stop_ = true ∧ k < st.workers_.length ∧
      ((d = false ∧ JoinedBelow st.workers_.length st.workers_) ∨ JoinedBelow k st.workers_)
  | .idle =>
    (st.stop_ = true → JoinedBelow st.workers_.length st.workers_) ∧
      (st.stop_ = false → JoinedBelow 0 st.workers_)
  | .raised _ => st.stop_ = true ∧ JoinedBelow st.workers_.length st.workers_
  | .destroyed => st.stop_ = true ∧ JoinedBelow st.workers_.length st.workers_

/-- Upper bound on the number of steps a worker can still take once `stop_` is set. -/
def WorkerPc.fuel : WorkerPc σ ε α → Nat
  | .waiting => 3
  | .running _ => 2
  | .loopHead => 1
  | .exited => 0

/-- Steps left for a worker and for its join. -/
def Worker.fuel (w : Worker σ ε α) : Nat := w.pc.fuel + (if w.joinable then 1 else 0)

/-- Steps left for all the workers and their joins. -/
def fuel (ws : List (Worker σ ε α)) : Nat := (ws.map Worker.fuel).sum

/-- The client is inside the destructor or has left it. -/
def InDtor (st : ThreadPool σ ε α) : Prop :=
  st.caller = .destroyed ∨ ∃ k, st.caller = .joining k true

/-- The tasks that an `add` step from `st` to `st1` has put at the back of `tasks_`. -/
def submitted (a : Action σ ε α) (st st1 : ThreadPool σ ε α) : List (PackagedTask σ ε α) :=
  match a with
  | .add _ => st1.tasks_.drop st.tasks_.length
  | _ => []

/-- The task that a worker, waiting in `st`, holds in `st1` after its step: the task it
has taken with `task = std::move(tasks_.front())`. -/
def acquired (a : Action σ ε α) (st st1 : ThreadPool σ ε α) : List (PackagedTask σ ε α) :=
  match a with
  | .worker i =>
    match st.workers_[i]?, st1.workers_[i]? with
    | some w, some w1 =>
      match w.pc, w1.pc with
      | .waiting, .running task => [task]
      | _, _ => []
    | _, _ => []
  | _ => []

/-- The sequence of tasks enqueued along a schedule, in the order of the `add` calls. -/
def enqueueLog : List (Action σ ε α) → ThreadPool σ ε α → List (PackagedTask σ ε α)
  | [], _ => []
  | a :: rest, st =>
    match step a st with
    | none => []
    | some st1 => submitted a st st1 ++ enqueueLog rest st1

/-- The sequence of tasks dequeued by workers along a schedule, in the order of the steps. -/
def dequeueLog : List (Action σ ε α) → ThreadPool σ ε α → List (PackagedTask σ ε α)
  | [], _ => []
  | a :: rest, st =>
    match step a st with
    | none => []
    | some st1 => acquired a st st1 ++ dequeueLog rest st1

/-- The callables of the `add` calls of a schedule, in order. -/
def addedCallables : List (Action σ ε α) → List (Callable σ ε α)
  | [] => []
  | .add f :: rest => f :: addedCallables rest
  | _ :: rest => addedCallables rest

/-- The task a worker holds between its dequeue and the end of the call. -/
def WorkerPc.held : WorkerPc σ ε α → List (PackagedTask σ ε α)
  | .running task => [task]
  | _ => []

/-- The tasks held by the workers. -/
def heldBy : List (Worker σ ε α) → List (PackagedTask σ ε α)
  | [] => []
  | w :: ws => w.pc.held ++ heldBy ws

/-- The tasks that have been submitted and have not finished: queued or held by a worker. -/
def pending (st : ThreadPool σ ε α) : List (PackagedTask σ ε α) :=
  st.tasks_ ++ heldBy st.workers_

/-- Channel discipline, an invariant of every execution: the pending tasks have pairwise
different channels, all of them allocated, and no channel beyond the allocated ones is
ready. -/
def ChanInv (st : ThreadPool σ ε α) : Prop :=
  ((pending st).map fun t => t.chan).Nodup ∧ (∀ t ∈ pending st, t.chan < st.nchan) ∧
    ∀ c, st.nchan ≤ c → st.chans c = none

/-- A destroyed pool has no queue. -/
def Tidy (st : ThreadPool σ ε α) : Prop := st.caller = .destroyed → st.tasks_ = []

/-- Every pending task on channel `c` carries the callable `f`. -/
def Carries (c : Nat) (f : Callable σ ε α) (st : ThreadPool σ ε α) : Prop :=
  c < st.nchan ∧ ∀ t ∈ pending st, t.chan = c → t.fn = f

/-- Channel `c` holds `v` and no pending task can write to it any more. -/
def Settled (c : Nat) (v : Except ε α) (st : ThreadPool σ ε α) : Prop :=
  st.chans c = some v ∧ c < st.nchan ∧ ∀ t ∈ pending st, t.chan ≠ c

/-- All workers are joined and the client memory is still `m`. While the pool is alive the
queue still starts with `q` and no channel has changed from `ch`; once it is destroyed the
queue is gone and the channels are `ch` after the destruction of a queue that started
with `q`. -/
def Frozen (q : List (PackagedTask σ ε α)) (m : σ) (ch : Nat → Option (Except ε α))
    (st : ThreadPool σ ε α) : Prop :=
  AllJoined st ∧ st.mem = m ∧
    (st.caller ≠ .destroyed → (∃ later, st.tasks_ = q ++ later) ∧ st.chans = ch) ∧
    (st.caller = .destroyed →
      st.tasks_ = [] ∧ ∃ later, st.chans = abandonAll (q ++ later) ch)

/-- Boolean form of `AllJoined`. -/
def allJoined (st : ThreadPool σ ε α) : Bool :=
  st.workers_.all fun w => w.pc.isExited && !w.joinable

/-- The observable summary of a state: for each worker its control point, the channel of the
task it holds and whether it is joinable; the channels of the queued tasks; `stop_`; the
control point of the client. -/
def ThreadPool.view (st : ThreadPool σ ε α) :
    List ((Nat × Option Nat) × Bool) × List Nat × Bool × Caller :=
  (st.workers_.map fun w => (w.pc.view, w.joinable), st.tasks_.map fun t => t.chan,
    st.stop_, st.caller)

/-- A callable that throws. -/
def divJob : Callable Int String Int := fun m => (m, .error "divide by zero")

/-- A callable that returns 7. -/
def sevenJob : Callable Int String Int := fun m => (m, .ok 7)

/-- A pool of one worker that has dequeued `divJob` and is about to call it. -/
def divState : ThreadPool Int String Int :=
  { workers_ := [⟨.running ⟨0, divJob⟩, true⟩], tasks_ := [], stop_ := false, mem := 0,
    chans := fun _ => none, nchan := 1, caller := .idle }

/-- A new pool of one worker. -/
def onePool : ThreadPool Int String Int := ThreadPool.init 1 0

/-- The pool `onePool` after `add(sevenJob)`. -/
def sevenQueued : ThreadPool Int String Int :=
  { workers_ := [⟨.loopHead, true⟩], tasks_ := [⟨0, sevenJob⟩], stop_ := false, mem := 0,
    chans := fun _ => none, nchan := 1, caller := .idle }

/-- The pool `sevenQueued` after the worker has dequeued the task. -/
def sevenHeld : ThreadPool Int String Int :=
  { workers_ := [⟨.running ⟨0, sevenJob⟩, true⟩], tasks_ := [], stop_ := false, mem := 0,
    chans := fun _ => none, nchan := 1, caller := .idle }

/-- The pool `onePool` after `stop()` has returned. -/
def oneStopped : ThreadPool Int String Int :=
  { workers_ := [⟨.exited, false⟩], tasks_ := [], stop_ := true, mem := 0,
    chans := fun _ => none, nchan := 0, caller := .idle }

/-- The job of main.cpp, lines 11-14: `result += i` under the client mutex. -/
def mainJob (i : Int) : Callable Int Unit Unit := fun result => (result + i, .ok ())

/-- The schedule of main.cpp in which the client runs `add` 100 times and `stop()` before
any of the 100 workers has evaluated `while (!stop_)` for the first time. -/
def mainSchedule : List (Action Int Unit Unit) :=
  (List.range 100).map (fun i => Action.add (mainJob (i + 1))) ++ [Action.stop] ++
    (List.range 100).map Action.worker ++ List.replicate 100 Action.join

/-- The transitions of `step`, one constructor for each path through the source. -/
inductive Step : ThreadPool σ ε α → Action σ ε α → ThreadPool σ ε α → Prop
  | add (st : ThreadPool σ ε α) (f : Callable σ ε α) (hfree : st.caller.free = true) :
    Step st (.add f)
      { st with nchan := st.nchan + 1, tasks_ := st.tasks_ ++ [⟨st.nchan, f⟩], caller := .idle }
  | stop (st : ThreadPool σ ε α) (hfree : st.caller.free = true) :
    Step st .stop { st with stop_ := true, caller := afterJoin 0 st.workers_.length false }
  | joinRaise (st : ThreadPool σ ε α) (k : Nat) (d : Bool) (w : Worker σ ε α)
    (hc : st.caller = .joining k d) (hw : st.workers_[k]? = some w) (hj : w.joinable = false) :
    Step st .join { st with caller := .raised .system_error }
  | joinOk (st : ThreadPool σ ε α) (k : Nat) (d : Bool) (w : Worker σ ε α)
    (hc : st.caller = .joining k d) (hw : st.workers_[k]? = some w) (hj : w.joinable = true)
    (he : w.pc = .exited) :
    Step st .join
      (ThreadPool.unwind
        { st with workers_ := st.workers_.set k { w with joinable := false }
                  caller := afterJoin (k + 1) st.workers_.length d })
  | destroyStop (st : ThreadPool σ ε α) (hfree : st.caller.free = true)
    (hs : st.stop_ = false) :
    Step st .destroy
      (ThreadPool.unwind
        { st with stop_ := true, caller := afterJoin 0 st.workers_.length true })
  | destroySkip (st : ThreadPool σ ε α) (hfree : st.caller.free = true)
    (hs : st.stop_ = true) :
    Step st .destroy (ThreadPool.destroyMembers { st with caller := .destroyed })
  | loopEnter (st : ThreadPool σ ε α) (i : Nat) (w : Worker σ ε α)
    (hw : st.workers_[i]? = some w) (hpc : w.pc = .loopHead) (hs : st.stop_ = false) :
    Step st (.worker i) { st with workers_ := st.workers_.set i { w with pc := .waiting } }
  | loopExit (st : ThreadPool σ ε α) (i : Nat) (w : Worker σ ε α)
    (hw : st.workers_[i]? = some w) (hpc : w.pc = .loopHead) (hs : st.stop_ = true) :
    Step st (.worker i) { st with workers_ := st.workers_.set i { w with pc := .exited } }
  | waitExit (st : ThreadPool σ ε α) (i : Nat) (w : Worker σ ε α)
    (hw : st.workers_[i]? = some w) (hpc : w.pc = .waiting) (hs : st.stop_ = true)
    (hq : st.tasks_ = []) :
    Step st (.worker i) { st with workers_ := st.workers_.set i { w with pc := .exited } }
  | dequeue (st : ThreadPool σ ε α) (i : Nat) (w : Worker σ ε α)
    (task : PackagedTask σ ε α) (rest : List (PackagedTask σ ε α))
    (hw : st.workers_[i]? = some w) (hpc : w.pc = .waiting) (hq : st.tasks_ = task :: rest) :
    Step st (.worker i)
      { st with tasks_ := rest, workers_ := st.workers_.set i { w with pc := .running task } }
  | run (st : ThreadPool σ ε α) (i : Nat) (w : Worker σ ε α) (task : PackagedTask σ ε α)
    (hw : st.workers_[i]? = some w) (hpc : w.pc = .running task) :
    Step st (.worker i)
      { st with mem := (task.fn st.mem).1
                chans := Function.update st.chans task.chan (some (task.fn st.mem).2)
                workers_ := st.workers_.set i { w with pc := .loopHead } }

/-! ## The transition function and the transition relation agree -/

omit [BrokenPromise ε] in
theorem invoke_eq (task : PackagedTask σ ε α) (st : ThreadPool σ ε α) :
    task.invoke st =
      { st with mem := (task.fn st.mem).1
                chans := Function.update st.chans task.chan (some (task.fn st.mem).2) } := by
  unfold PackagedTask.invoke
  rcases hf : task.fn st.mem with ⟨m, r⟩
  cases r <;> rfl

omit [BrokenPromise ε] in
theorem pop_blocking_cons (task : PackagedTask σ ε α) (rest : List (PackagedTask σ ε α))
    (s : Bool) : pop_blocking (task :: rest) s = some (.job task, rest) := by
  cases s <;> simp [pop_blocking]

omit [BrokenPromise ε] in
theorem pop_blocking_nil_stop :
    pop_blocking ([] : List (PackagedTask σ ε α)) true = some (.shutdown, []) := by
  simp [pop_blocking]

omit [BrokenPromise ε] in
theorem pop_blocking_nil_run :
    pop_blocking ([] : List (PackagedTask σ ε α)) false = none := by
  simp [pop_blocking]

/-! ### Destruction of the members -/

theorem unwind_of_ne {st : ThreadPool σ ε α} (h : st.caller ≠ .destroyed) :
    ThreadPool.unwind st = st := by
  unfold ThreadPool.unwind
  cases hc : st.caller <;> simp [hc] at h ⊢

theorem unwind_of_eq {st : ThreadPool σ ε α} (h : st.caller = .destroyed) :
    ThreadPool.unwind st = ThreadPool.destroyMembers st := by
  unfold ThreadPool.unwind
  simp [h]

theorem unwind_caller (st : ThreadPool σ ε α) : (ThreadPool.unwind st).caller = st.caller := by
  unfold ThreadPool.unwind ThreadPool.destroyMembers
  cases hc : st.caller <;> simp [hc]

theorem unwind_workers (st : ThreadPool σ ε α) :
    (ThreadPool.unwind st).workers_ = st.workers_ := by
  unfold ThreadPool.unwind ThreadPool.destroyMembers
  cases hc : st.caller <;> simp

theorem unwind_stop (st : ThreadPool σ ε α) : (ThreadPool.unwind st).stop_ = st.stop_ := by
  unfold ThreadPool.unwind ThreadPool.destroyMembers
  cases hc : st.caller <;> simp

theorem unwind_mem (st : ThreadPool σ ε α) : (ThreadPool.unwind st).mem = st.mem := by
  unfold ThreadPool.unwind ThreadPool.destroyMembers
  cases hc : st.caller <;> simp

theorem unwind_nchan (st : ThreadPool σ ε α) : (ThreadPool.unwind st).nchan = st.nchan := by
  unfold ThreadPool.unwind ThreadPool.destroyMembers
  cases hc : st.caller <;> simp

/-- The end of a client step either leaves the queue and the channels alone, or it is the end
of the destructor, which empties the queue and abandons the queued tasks. -/
theorem unwind_cases (st : ThreadPool σ ε α) :
    ((ThreadPool.unwind st).caller ≠ .destroyed ∧ ThreadPool.unwind st = st) ∨
    ((ThreadPool.unwind st).caller = .destroyed ∧ (ThreadPool.unwind st).tasks_ = [] ∧
      (ThreadPool.unwind st).chans = abandonAll st.tasks_ st.chans) := by
  by_cases hc : st.caller = .destroyed
  · right
    rw [unwind_of_eq hc]
    exact ⟨hc, rfl, rfl⟩
  · left
    rw [unwind_of_ne hc]
    exact ⟨hc, rfl⟩

theorem afterJoin_false_ne (k n : Nat) : afterJoin k n false ≠ .destroyed := by
  unfold afterJoin
  by_cases h : k < n <;> simp [h]

theorem stop_false_eq (st : ThreadPool σ ε α) :
    ThreadPool.stop false st =
      { st with stop_ := true, caller := afterJoin 0 st.workers_.length false } :=
  unwind_of_ne (afterJoin_false_ne _ _)

/-- A channel that is ready is not touched by the destruction of tasks. -/
theorem abandonAll_ready (ts : List (PackagedTask σ ε α)) (ch : Nat → Option (Except ε α))
    (c : Nat) (v : Except ε α) (h : ch c = some v) : abandonAll ts ch c = some v := by
  induction ts generalizing ch with
  | nil => exact h
  | cons t ts ih =>
    apply ih
    unfold abandon
    cases ht : ch t.chan with
    | none =>
      have : c ≠ t.chan := fun e => by rw [e, ht] at h; simp at h
      simp [Function.update_noteq this, h]
    | some x => simpa using h

/-- The destruction of tasks touches the channels of these tasks only. -/
theorem abandonAll_other (ts : List (PackagedTask σ ε α)) (ch : Nat → Option (Except ε α))
    (c : Nat) (h : ∀ t ∈ ts, t.chan ≠ c) : abandonAll ts ch c = ch c := by
  induction ts generalizing ch with
  | nil => rfl
  | cons t ts ih =>
    have hne : c ≠ t.chan := fun e => h t (List.mem_cons_self _ _) e.symm
    rw [abandonAll, ih _ (fun u hu => h u (List.mem_cons_of_mem _ hu))]
    unfold abandon
    cases ht : ch t.chan with
    | none => simp [Function.update_noteq hne]
    | some x => rfl

/-- The channel of a destroyed task that was not ready holds `broken_promise`. -/
theorem abandonAll_mem (ts : List (PackagedTask σ ε α)) (ch : Nat → Option (Except ε α))
    (t : PackagedTask σ ε α) (hm : t ∈ ts) (h : ch t.chan = none) :
    abandonAll ts ch t.chan = some (.error BrokenPromise.broken_promise) := by
  induction ts generalizing ch with
  | nil => simp at hm
  | cons u us ih =>
    rw [abandonAll]
    by_cases hu : u.chan = t.chan
    · apply abandonAll_ready
      unfold abandon
      rw [hu, h]
      simp
    · rcases List.mem_cons.1 hm with e | hm1
      · exact absurd (by rw [e]) hu
      · apply ih _ hm1
        unfold abandon
        cases hc : ch u.chan with
        | none => simp [Function.update_noteq (fun e => hu e.symm), h]
        | some x => simpa using h

theorem dtor_of_stopped {st : ThreadPool σ ε α} (hs : st.stop_ = true) :
    ThreadPool.dtor st = ThreadPool.destroyMembers { st with caller := .destroyed } := by
  simp [ThreadPool.dtor, hs, ThreadPool.unwind]

theorem dtor_of_running {st : ThreadPool σ ε α} (hs : st.stop_ = false) :
    ThreadPool.dtor st = ThreadPool.stop true st := by
  simp [ThreadPool.dtor, hs]

theorem step_of_Step {st st1 : ThreadPool σ ε α} {a : Action σ ε α} (h : Step st a st1) :
    step a st = some st1 := by
  cases h with
  | add f hfree => simp [step, hfree, ThreadPool.add]
  | stop hfree => simp [step, hfree, stop_false_eq]
  | joinRaise k d w hc hw hj => simp [step, ThreadPool.join, hc, hw, hj]
  | joinOk k d w hc hw hj he => simp [step, ThreadPool.join, hc, hw, hj, he, WorkerPc.isExited]
  | destroyStop hfree hs => simp [step, hfree, ThreadPool.dtor, hs, ThreadPool.stop]
  | destroySkip hfree hs => simp [step, hfree, ThreadPool.dtor, hs, ThreadPool.unwind]
  | loopEnter i w hw hpc hs => simp [step, hw, hpc, worker_step, hs]
  | loopExit i w hw hpc hs => simp [step, hw, hpc, worker_step, hs]
  | waitExit i w hw hpc hs hq => simp [step, hw, hpc, worker_step, hs, hq, pop_blocking]
  | dequeue i w task rest hw hpc hq =>
    simp [step, hw, hpc, worker_step, hq, pop_blocking_cons]
  | run i w task hw hpc => simp [step, hw, hpc, worker_step, invoke_eq]

theorem Step_of_step {st st1 : ThreadPool σ ε α} {a : Action σ ε α}
    (h : step a st = some st1) : Step st a st1 := by
  cases a with
  | add f =>
    by_cases hfree : st.caller.free = true
    · simp [step, hfree, ThreadPool.add] at h
      subst h
      exact Step.add st f hfree
    · simp [step, hfree] at h
  | stop =>
    by_cases hfree : st.caller.free = true
    · simp [step, hfree, stop_false_eq] at h
      subst h
      exact Step.stop st hfree
    · simp [step, hfree] at h
  | join =>
    simp only [step, ThreadPool.join] at h
    split at h
    · rename_i k d hc
      split at h
      · exact absurd h (by simp)
      · rename_i w hw
        by_cases hj : w.joinable = true
        · by_cases he : w.pc.isExited = true
          · simp [hj, he] at h
            subst h
            have hpc : w.pc = .exited := by
              cases hp : w.pc <;> simp [hp, WorkerPc.isExited] at he ⊢
            exact Step.joinOk st k d w hc hw hj hpc
          · simp [hj, he] at h
        · simp [hj] at h
          subst h
          exact Step.joinRaise st k d w hc hw (by simpa using hj)
    · exact absurd h (by simp)
  | destroy =>
    by_cases hfree : st.caller.free = true
    · cases hs : st.stop_
      · simp [step, hfree, ThreadPool.dtor, hs, ThreadPool.stop] at h
        subst h
        exact Step.destroyStop st hfree hs
      · simp only [step, hfree, if_true, Option.some.injEq] at h
        subst h
        rw [dtor_of_stopped hs]
        exact Step.destroySkip st hfree hs
    · simp [step, hfree] at h
  | worker i =>
    simp only [step] at h
    split at h
    · exact absurd h (by simp)
    · rename_i w hw
      cases hpc : w.pc with
      | loopHead =>
        cases hs : st.stop_
        · simp [hpc, worker_step, hs] at h
          subst h
          simpa [hs] using Step.loopEnter st i w hw hpc hs
        · simp [hpc, worker_step, hs] at h
          subst h
          simpa [hs] using Step.loopExit st i w hw hpc hs
      | waiting =>
        cases hq : st.tasks_ with
        | nil =>
          cases hs : st.stop_
          · simp [hpc, worker_step, hs, hq, pop_blocking] at h
          · simp [hpc, worker_step, hs, hq, pop_blocking] at h
            subst h
            simpa [hq, hs] using Step.waitExit st i w hw hpc hs hq
        | cons task rest =>
          simp [hpc, worker_step, hq, pop_blocking_cons] at h
          subst h
          exact Step.dequeue st i w task rest hw hpc hq
      | running task =>
        simp [hpc, worker_step, invoke_eq] at h
        subst h
        exact Step.run st i w task hw hpc
      | exited => simp [hpc, worker_step] at h

theorem step_iff_Step {st st1 : ThreadPool σ ε α} {a : Action σ ε α} :
    step a st = some st1 ↔ Step st a st1 :=
  ⟨Step_of_step, step_of_Step⟩

/-! ## Executions -/

theorem exec_cons (a : Action σ ε α) (tr : List (Action σ ε α)) (st st2 : ThreadPool σ ε α) :
    exec (a :: tr) st = some st2 ↔ ∃ st1, step a st = some st1 ∧ exec tr st1 = some st2 := by
  simp only [exec]
  cases h : step a st <;> simp

theorem exec_append (tr1 tr2 : List (Action σ ε α)) (st st2 : ThreadPool σ ε α) :
    exec (tr1 ++ tr2) st = some st2 ↔
      ∃ st1, exec tr1 st = some st1 ∧ exec tr2 st1 = some st2 := by
  induction tr1 generalizing st with
  | nil => simp [exec]
  | cons a tr ih =>
    simp only [List.cons_append, exec_cons, ih]
    constructor
    · rintro ⟨s1, h1, s2, h2, h3⟩
      exact ⟨s2, ⟨s1, h1, h2⟩, h3⟩
    · rintro ⟨s2, ⟨s1, h1, h2⟩, h3⟩
      exact ⟨s1, h1, s2, h2, h3⟩

/-- A property that holds initially and is kept by every step holds after every schedule. -/
theorem exec_induct (P : ThreadPool σ ε α → Prop)
    (hstep : ∀ st a st1, P st → Step st a st1 → P st1)
    (tr : List (Action σ ε α)) (st st2 : ThreadPool σ ε α)
    (h0 : P st) (h : exec tr st = some st2) : P st2 := by
  induction tr generalizing st with
  | nil =>
    simp [exec] at h
    subst h
    exact h0
  | cons a tr ih =>
    obtain ⟨st1, h1, h2⟩ := (exec_cons a tr st st2).1 h
    exact ih st1 (hstep st a st1 h0 (Step_of_step h1)) h2

/-! ## The join discipline -/

theorem getElem?_set_some {β : Type} {l : List β} {i j : Nat} {a b : β}
    (h : (l.set i a)[j]? = some b) : (j = i ∧ b = a) ∨ (j ≠ i ∧ l[j]? = some b) := by
  by_cases hij : i = j
  · subst hij
    rw [List.getElem?_set] at h
    simp at h
    exact Or.inl ⟨rfl, h.2.symm⟩
  · rw [List.getElem?_set_ne hij] at h
    exact Or.inr ⟨fun e => hij e.symm, h⟩

omit [BrokenPromise ε] in
theorem allJoined_iff (st : ThreadPool σ ε α) :
    AllJoined st ↔ JoinedBelow st.workers_.length st.workers_ := by
  constructor
  · intro h j w hw
    refine ⟨fun _ => h w (List.mem_iff_getElem?.2 ⟨j, hw⟩), fun hle => ?_⟩
    have := (List.getElem?_eq_some_iff.1 hw).1
    omega
  · intro h w hw
    obtain ⟨j, hj⟩ := List.mem_iff_getElem?.1 hw
    exact (h j w hj).1 (List.getElem?_eq_some_iff.1 hj).1

omit [BrokenPromise ε] in
/-- A step of a worker that has not returned keeps the join status of all workers. -/
theorem JoinedBelow_set_pc {ws : List (Worker σ ε α)} {i k : Nat} {w : Worker σ ε α}
    (pc : WorkerPc σ ε α) (hw : ws[i]? = some w) (hne : w.pc.isExited = false)
    (h : JoinedBelow k ws) : JoinedBelow k (ws.set i { w with pc := pc }) := by
  intro j w1 h1
  rcases getElem?_set_some h1 with ⟨hj, hw1⟩ | ⟨_, hw1⟩
  · subst hj
    subst hw1
    have := h j w hw
    refine ⟨fun hlt => ?_, fun hle => this.2 hle⟩
    have := (this.1 hlt).1
    simp [hne] at this
  · exact h j w1 hw1

omit [BrokenPromise ε] in
theorem JoinedBelow_join {ws : List (Worker σ ε α)} {k : Nat} {w : Worker σ ε α}
    (hw : ws[k]? = some w) (he : w.pc = .exited) (h : JoinedBelow k ws) :
    JoinedBelow (k + 1) (ws.set k { w with joinable := false }) := by
  intro j w1 h1
  rcases getElem?_set_some h1 with ⟨hj, hw1⟩ | ⟨hj, hw1⟩
  · subst hj
    subst hw1
    exact ⟨fun _ => ⟨by simp [he, WorkerPc.isExited], rfl⟩, fun hle => by omega⟩
  · have := h j w1 hw1
    exact ⟨fun hlt => this.1 (by omega), fun hle => this.2 (by omega)⟩

omit [BrokenPromise ε] in
theorem Inv_init (size : Int) (mem : σ) : Inv (ThreadPool.init size mem : ThreadPool σ ε α) := by
  simp only [Inv, ThreadPool.init, ThreadPool.ctor]
  refine ⟨by simp, fun _ => ?_⟩
  intro j w hw
  rw [List.getElem?_replicate] at hw
  split at hw
  · simp at hw
    subst hw
    simp
  · simp at hw

omit [BrokenPromise ε] in
theorem Inv_worker {st : ThreadPool σ ε α} {i : Nat} {w : Worker σ ε α}
    (ts : List (PackagedTask σ ε α)) (m : σ) (ch : Nat → Option (Except ε α))
    (pc : WorkerPc σ ε α) (hw : st.workers_[i]? = some w) (hne : w.pc.isExited = false)
    (h : Inv st) :
    Inv { st with workers_ := st.workers_.set i { w with pc := pc }, tasks_ := ts,
                  mem := m, chans := ch } := by
  unfold Inv at h ⊢
  cases hc : st.caller with
  | idle =>
    simp only [hc] at h ⊢
    simp only [List.length_set]
    exact ⟨fun hs => JoinedBelow_set_pc pc hw hne (h.1 hs),
      fun hs => JoinedBelow_set_pc pc hw hne (h.2 hs)⟩
  | joining k d =>
    simp only [hc] at h ⊢
    simp only [List.length_set]
    refine ⟨h.1, h.2.1, ?_⟩
    rcases h.2.2 with ⟨hd, hj⟩ | hj
    · exact Or.inl ⟨hd, JoinedBelow_set_pc pc hw hne hj⟩
    · exact Or.inr (JoinedBelow_set_pc pc hw hne hj)
  | raised e =>
    simp only [hc] at h ⊢
    simp only [List.length_set]
    exact ⟨h.1, JoinedBelow_set_pc pc hw hne h.2⟩
  | destroyed =>
    simp only [hc] at h ⊢
    simp only [List.length_set]
    exact ⟨h.1, JoinedBelow_set_pc pc hw hne h.2⟩

omit [BrokenPromise ε] in
/-- Outside every member function, a set flag means that every worker has been joined, and
a clear flag that none has. -/
theorem Inv_free {st : ThreadPool σ ε α} (h : Inv st) (hfree : st.caller.free = true) :
    (st.stop_ = true → JoinedBelow st.workers_.length st.workers_) ∧
      (st.stop_ = false → JoinedBelow 0 st.workers_) := by
  unfold Inv at h
  cases hc : st.caller with
  | idle => simpa [hc] using h
  | joining k d => simp [hc, Caller.free] at hfree
  | raised e =>
    simp only [hc] at h
    exact ⟨fun _ => h.2, fun hs => by simp [h.1] at hs⟩
  | destroyed => simp [hc, Caller.free] at hfree

omit [BrokenPromise ε] in
theorem Inv_enter_stop {st : ThreadPool σ ε α} (d : Bool) (h : Inv st)
    (hfree : st.caller.free = true) (hd : d = true → st.stop_ = false) :
    Inv { st with stop_ := true, caller := afterJoin 0 st.workers_.length d } := by
  have hf := Inv_free h hfree
  unfold Inv afterJoin
  by_cases hn : 0 < st.workers_.length
  · simp only [hn, if_true]
    refine ⟨trivial, trivial, ?_⟩
    cases hs : st.stop_
    · exact Or.inr (hf.2 hs)
    · cases d
      · exact Or.inl ⟨rfl, hf.1 hs⟩
      · simp [hs] at hd
  · have hz : st.workers_ = [] := List.eq_nil_of_length_eq_zero (by omega)
    have hall : JoinedBelow st.workers_.length st.workers_ := by
      intro j w hw
      simp [hz] at hw
    cases d <;> simp [hn, hall]

omit [BrokenPromise ε] in
/-- The join discipline speaks of the client, the flag and the workers only. -/
theorem Inv_congr {st st1 : ThreadPool σ ε α} (hc : st1.caller = st.caller)
    (hs : st1.stop_ = st.stop_) (hw : st1.workers_ = st.workers_) (h : Inv st) : Inv st1 := by
  unfold Inv at h ⊢
  rw [hc, hs, hw]
  exact h

theorem Inv_unwind {st : ThreadPool σ ε α} (h : Inv st) : Inv (ThreadPool.unwind st) :=
  Inv_congr (unwind_caller st) (unwind_stop st) (unwind_workers st) h

theorem Inv_step (st : ThreadPool σ ε α) (a : Action σ ε α) (st1 : ThreadPool σ ε α)
    (h : Inv st) (hs : Step st a st1) : Inv st1 := by
  cases hs with
  | add f hfree =>
    have hf := Inv_free h hfree
    simpa [Inv] using hf
  | stop hfree => exact Inv_enter_stop false h hfree (by simp)
  | joinRaise k d w hc hw hj =>
    unfold Inv at h ⊢
    simp only [hc] at h
    refine ⟨h.1, ?_⟩
    rcases h.2.2 with ⟨_, hall⟩ | hb
    · exact hall
    · have := (hb k w hw).2 (Nat.le_refl k)
      simp [hj] at this
  | joinOk k d w hc hw hj he =>
    have h0 := h
    unfold Inv at h
    simp only [hc] at h
    have hb : JoinedBelow k st.workers_ := by
      rcases h.2.2 with ⟨_, hall⟩ | hb
      · have := (hall k w hw).1 h.2.1
        simp [hj] at this
      · exact hb
    have hb1 := JoinedBelow_join hw he hb
    apply Inv_unwind
    unfold Inv afterJoin
    by_cases hn : k + 1 < st.workers_.length
    · simp only [hn, if_true, List.length_set]
      exact ⟨h.1, trivial, Or.inr hb1⟩
    · have hk : k + 1 = st.workers_.length := by have := h.2.1; omega
      cases d <;> simp [hn, h.1, ← hk, hb1]
  | destroyStop hfree hs => exact Inv_unwind (Inv_enter_stop true h hfree (fun _ => hs))
  | destroySkip hfree hs =>
    have hf := Inv_free h hfree
    exact ⟨hs, hf.1 hs⟩
  | loopEnter i w hw hpc hs =>
    exact Inv_worker st.tasks_ st.mem st.chans _ hw (by simp [hpc, WorkerPc.isExited]) h
  | loopExit i w hw hpc hs =>
    exact Inv_worker st.tasks_ st.mem st.chans _ hw (by simp [hpc, WorkerPc.isExited]) h
  | waitExit i w hw hpc hs hq =>
    exact Inv_worker st.tasks_ st.mem st.chans _ hw (by simp [hpc, WorkerPc.isExited]) h
  | dequeue i w task rest hw hpc hq =>
    exact Inv_worker rest st.mem st.chans _ hw (by simp [hpc, WorkerPc.isExited]) h
  | run i w task hw hpc =>
    exact Inv_worker st.tasks_ _ _ _ hw (by simp [hpc, WorkerPc.isExited]) h

/-- The join discipline holds in every state that a schedule reaches from a new pool. -/
theorem Inv_exec (size : Int) (mem : σ) (tr : List (Action σ ε α)) (st : ThreadPool σ ε α)
    (h : exec tr (ThreadPool.init size mem) = some st) : Inv st :=
  exec_induct Inv Inv_step tr _ st (Inv_init size mem) h

/-! ## Termination of the shutdown sequence -/

omit [BrokenPromise ε] in
theorem fuel_set {ws : List (Worker σ ε α)} {i : Nat} {w : Worker σ ε α}
    (w1 : Worker σ ε α) (hw : ws[i]? = some w) :
    fuel (ws.set i w1) + w.fuel = fuel ws + w1.fuel := by
  induction ws generalizing i with
  | nil => simp at hw
  | cons x xs ih =>
    cases i with
    | zero =>
      simp at hw
      subst hw
      simp [fuel]
      omega
    | succ i =>
      simp at hw
      have := ih hw
      simp [fuel] at this ⊢
      omega

omit [BrokenPromise ε] in
theorem fuel_le (ws : List (Worker σ ε α)) : fuel ws ≤ 4 * ws.length := by
  induction ws with
  | nil => simp [fuel]
  | cons x xs ih =>
    have hx : x.fuel ≤ 4 := by
      unfold Worker.fuel
      cases x.pc <;> cases x.joinable <;> simp [WorkerPc.fuel]
    simp [fuel] at ih ⊢
    omega

omit [BrokenPromise ε] in
theorem Inv_stop_of_InDtor {st : ThreadPool σ ε α} (h : Inv st) (hd : InDtor st) :
    st.stop_ = true := by
  unfold Inv at h
  rcases hd with hc | ⟨k, hc⟩
  · simp only [hc] at h
    exact h.1
  · simp only [hc] at h
    exact h.1

omit [BrokenPromise ε] in
theorem not_free_of_InDtor {st : ThreadPool σ ε α} (hd : InDtor st) :
    st.caller.free = false := by
  rcases hd with hc | ⟨k, hc⟩ <;> simp [hc, Caller.free]

omit [BrokenPromise ε] in
theorem InDtor_afterJoin (st : ThreadPool σ ε α) (k n : Nat)
    (hc : st.caller = afterJoin k n true) : InDtor st := by
  unfold InDtor
  rw [hc]
  unfold afterJoin
  by_cases hn : k < n
  · exact Or.inr ⟨k, by simp [hn]⟩
  · exact Or.inl (by simp [hn])

/-- Inside the destructor every step uses up fuel, and the client stays inside the destructor
until it has left it. -/
theorem InDtor_step {st st1 : ThreadPool σ ε α} {a : Action σ ε α}
    (h : Inv st) (hd : InDtor st) (hs : Step st a st1) :
    InDtor st1 ∧ fuel st1.workers_ < fuel st.workers_ := by
  have hstop := Inv_stop_of_InDtor h hd
  have hnf := not_free_of_InDtor hd
  cases hs with
  | add f hfree => simp [hnf] at hfree
  | stop hfree => simp [hnf] at hfree
  | destroyStop hfree hs => simp [hnf] at hfree
  | destroySkip hfree hs => simp [hnf] at hfree
  | joinRaise k d w hc hw hj =>
    exfalso
    unfold Inv at h
    simp only [hc] at h
    rcases hd with hc1 | ⟨k1, hc1⟩
    · simp [hc] at hc1
    · simp [hc] at hc1
      rcases h.2.2 with ⟨hf, _⟩ | hb
      · simp [hc1.2] at hf
      · have := (hb k w hw).2 (Nat.le_refl k)
        simp [hj] at this
  | joinOk k d w hc hw hj he =>
    have hdt : d = true := by
      rcases hd with hc1 | ⟨k1, hc1⟩
      · simp [hc] at hc1
      · simp [hc] at hc1
        exact hc1.2
    subst hdt
    refine ⟨InDtor_afterJoin _ _ _ (unwind_caller _), ?_⟩
    have := fuel_set { w with joinable := false } hw
    simp [Worker.fuel, hj] at this
    rw [unwind_workers]
    simp only
    omega
  | loopEnter i w hw hpc hs => simp [hstop] at hs
  | loopExit i w hw hpc hs =>
    refine ⟨hd, ?_⟩
    have := fuel_set { w with pc := .exited } hw
    simp [Worker.fuel, hpc, WorkerPc.fuel] at this
    simp only
    omega
  | waitExit i w hw hpc hs hq =>
    refine ⟨hd, ?_⟩
    have := fuel_set { w with pc := .exited } hw
    simp [Worker.fuel, hpc, WorkerPc.fuel] at this
    simp only
    omega
  | dequeue i w task rest hw hpc hq =>
    refine ⟨hd, ?_⟩
    have := fuel_set { w with pc := .running task } hw
    simp [Worker.fuel, hpc, WorkerPc.fuel] at this
    simp only
    omega
  | run i w task hw hpc =>
    refine ⟨hd, ?_⟩
    have := fuel_set { w with pc := .loopHead } hw
    simp [Worker.fuel, hpc, WorkerPc.fuel] at this
    simp only
    omega

theorem InDtor_exec (tr : List (Action σ ε α)) (st st2 : ThreadPool σ ε α)
    (h : Inv st) (hd : InDtor st) (he : exec tr st = some st2) :
    Inv st2 ∧ InDtor st2 ∧ fuel st2.workers_ + tr.length ≤ fuel st.workers_ := by
  induction tr generalizing st with
  | nil =>
    simp [exec] at he
    subst he
    exact ⟨h, hd, by simp⟩
  | cons a tr ih =>
    obtain ⟨st1, h1, h2⟩ := (exec_cons a tr st st2).1 he
    have hs := Step_of_step h1
    have hi := Inv_step st a st1 h hs
    have hstep := InDtor_step h hd hs
    have := ih st1 hi hstep.1 h2
    refine ⟨this.1, this.2.1, ?_⟩
    simp only [List.length_cons]
    omega

/-- While the client is in the join loop of a first `stop()`, the worker it waits for can
step, or has returned and can be joined: the system is not stuck. -/
theorem progress_joining {st : ThreadPool σ ε α} {k : Nat} (h : Inv st)
    (hc : st.caller = .joining k true) : ∃ a st1, step a st = some st1 := by
  unfold Inv at h
  simp only [hc] at h
  obtain ⟨hstop, hk, hb⟩ := h
  have hb : JoinedBelow k st.workers_ := by
    rcases hb with ⟨hf, _⟩ | hb
    · simp at hf
    · exact hb
  obtain ⟨w, hw⟩ : ∃ w, st.workers_[k]? = some w :=
    ⟨st.workers_[k], List.getElem?_eq_getElem hk⟩
  have hj := (hb k w hw).2 (Nat.le_refl k)
  cases hpc : w.pc with
  | loopHead => exact ⟨.worker k, _, step_of_Step (Step.loopExit st k w hw hpc hstop)⟩
  | waiting =>
    cases hq : st.tasks_ with
    | nil => exact ⟨.worker k, _, step_of_Step (Step.waitExit st k w hw hpc hstop hq)⟩
    | cons task rest =>
      exact ⟨.worker k, _, step_of_Step (Step.dequeue st k w task rest hw hpc hq)⟩
  | running task => exact ⟨.worker k, _, step_of_Step (Step.run st k w task hw hpc)⟩
  | exited => exact ⟨.join, _, step_of_Step (Step.joinOk st k true w hc hw hj hpc)⟩

/-- A worker that has returned takes no step. -/
theorem no_worker_step_of_exited {st : ThreadPool σ ε α} {i : Nat} {w : Worker σ ε α}
    (hw : st.workers_[i]? = some w) (he : w.pc.isExited = true) :
    step (.worker i) st = none := by
  cases hpc : w.pc <;> simp [hpc, WorkerPc.isExited] at he
  simp [step, hw, hpc, worker_step]

/-- After the destructor has returned nothing happens any more. -/
theorem no_step_destroyed {st : ThreadPool σ ε α} (h : Inv st)
    (hc : st.caller = .destroyed) (a : Action σ ε α) : step a st = none := by
  unfold Inv at h
  simp only [hc] at h
  cases a with
  | add f => simp [step, hc, Caller.free]
  | stop => simp [step, hc, Caller.free]
  | destroy => simp [step, hc, Caller.free]
  | join => simp [step, ThreadPool.join, hc]
  | worker i =>
    cases hw : st.workers_[i]? with
    | none => simp [step, hw]
    | some w =>
      have hi := (List.getElem?_eq_some_iff.1 hw).1
      exact no_worker_step_of_exited hw ((h.2 i w hw).1 hi).1

/-! ## The destructor -/

/-- C8. In every state that a schedule reaches from a new pool with the client outside every
member function, destroying the pool is enabled. If `stop_` is already set the destructor
runs no `stop()` and no join (the flag and the workers are unchanged, the members are
destroyed) and every worker is joined already; if `stop_` is clear it runs exactly the
sequence of `stop()`. In both
cases, along every schedule that follows: `stop_` is set, no exception is raised, at most
four steps for each worker are taken, the system is never stuck before the destructor has
returned, and once it has returned every worker has returned and been joined and nothing
can step. -/
theorem destructor_joins_all (size : Int) (mem : σ) (tr : List (Action σ ε α))
    (st : ThreadPool σ ε α) (hreach : exec tr (ThreadPool.init size mem) = some st)
    (hfree : st.caller.free = true) :
    step .destroy st = some (ThreadPool.dtor st) ∧
    (st.stop_ = true →
      ThreadPool.dtor st =
        { st with tasks_ := [], chans := abandonAll st.tasks_ st.chans, caller := .destroyed } ∧
      AllJoined st) ∧
    (st.stop_ = false → ThreadPool.dtor st = ThreadPool.stop true st) ∧
    ∀ tr2 st2, exec tr2 (ThreadPool.dtor st) = some st2 →
      st2.stop_ = true ∧ (∀ e, st2.caller ≠ .raised e) ∧
      tr2.length ≤ 4 * st.workers_.length ∧
      (st2.caller = .destroyed → AllJoined st2 ∧ ∀ a, step a st2 = none) ∧
      (st2.caller ≠ .destroyed → ∃ a st3, step a st2 = some st3) := by
  have hinv := Inv_exec size mem tr st hreach
  have hstep : step .destroy st = some (ThreadPool.dtor st) := by simp [step, hfree]
  have hinv1 : Inv (ThreadPool.dtor st) := Inv_step st _ _ hinv (Step_of_step hstep)
  have hlen : (ThreadPool.dtor st).workers_ = st.workers_ := by
    cases hs : st.stop_
    · rw [dtor_of_running hs, ThreadPool.stop, unwind_workers]
    · rw [dtor_of_stopped hs]
      rfl
  have hd1 : InDtor (ThreadPool.dtor st) := by
    cases hs : st.stop_
    · rw [dtor_of_running hs, ThreadPool.stop]
      exact InDtor_afterJoin _ 0 st.workers_.length (unwind_caller _)
    · rw [dtor_of_stopped hs]
      exact Or.inl rfl
  refine ⟨hstep, ?_, ?_, ?_⟩
  · intro hs
    refine ⟨dtor_of_stopped hs, ?_⟩
    exact (allJoined_iff st).2 ((Inv_free hinv hfree).1 hs)
  · intro hs
    exact dtor_of_running hs
  · intro tr2 st2 he
    obtain ⟨hi2, hd2, hfuel⟩ := InDtor_exec tr2 _ st2 hinv1 hd1 he
    refine ⟨Inv_stop_of_InDtor hi2 hd2, ?_, ?_, ?_, ?_⟩
    · intro e hc
      have := not_free_of_InDtor hd2
      simp [hc, Caller.free] at this
    · have := fuel_le (ThreadPool.dtor st).workers_
      rw [hlen] at this hfuel
      omega
    · intro hc
      refine ⟨(allJoined_iff st2).2 ?_, no_step_destroyed hi2 hc⟩
      have := hi2
      unfold Inv at this
      simp only [hc] at this
      exact this.2
    · intro hc
      rcases hd2 with hc2 | ⟨k, hc2⟩
      · exact absurd hc2 hc
      · exact progress_joining hi2 hc2

/-! ## First in, first out -/

theorem getElem?_set_self_of_some {β : Type} {l : List β} {i : Nat} {a : β} (b : β)
    (h : l[i]? = some a) : (l.set i b)[i]? = some b :=
  List.getElem?_set_self (List.getElem?_eq_some_iff.1 h).1

/-- One step: what was queued and what the step enqueued is what the step dequeued, what
is queued now, and what the step destroyed with the queue; only the end of the destructor
destroys tasks. -/
theorem fifo_step {st st1 : ThreadPool σ ε α} {a : Action σ ε α} (hs : Step st a st1) :
    ∃ dropped, st.tasks_ ++ submitted a st st1 = acquired a st st1 ++ st1.tasks_ ++ dropped ∧
      (st1.caller ≠ .destroyed → dropped = []) := by
  cases hs with
  | add f hfree => exact ⟨[], by simp [submitted, acquired], fun _ => rfl⟩
  | stop hfree => exact ⟨[], by simp [submitted, acquired], fun _ => rfl⟩
  | joinRaise k d w hc hw hj => exact ⟨[], by simp [submitted, acquired], fun _ => rfl⟩
  | joinOk k d w hc hw hj he =>
    rcases unwind_cases
      ({ st with workers_ := st.workers_.set k { w with joinable := false }
                 caller := afterJoin (k + 1) st.workers_.length d } : ThreadPool σ ε α)
      with ⟨_, h2⟩ | ⟨h1, h2, _⟩
    · rw [h2]
      exact ⟨[], by simp [submitted, acquired], fun _ => rfl⟩
    · exact ⟨st.tasks_, by simp [submitted, acquired, h2], fun h => absurd h1 h⟩
  | destroyStop hfree hs =>
    rcases unwind_cases
      ({ st with stop_ := true
                 caller := afterJoin 0 st.workers_.length true } : ThreadPool σ ε α)
      with ⟨_, h2⟩ | ⟨h1, h2, _⟩
    · rw [h2]
      exact ⟨[], by simp [submitted, acquired], fun _ => rfl⟩
    · exact ⟨st.tasks_, by simp [submitted, acquired, h2], fun h => absurd h1 h⟩
  | destroySkip hfree hs =>
    exact ⟨st.tasks_, by simp [submitted, acquired, ThreadPool.destroyMembers],
      fun h => absurd rfl h⟩
  | loopEnter i w hw hpc hs =>
    exact ⟨[], by simp [submitted, acquired, hw, getElem?_set_self_of_some _ hw, hpc],
      fun _ => rfl⟩
  | loopExit i w hw hpc hs =>
    exact ⟨[], by simp [submitted, acquired, hw, getElem?_set_self_of_some _ hw, hpc],
      fun _ => rfl⟩
  | waitExit i w hw hpc hs hq =>
    exact ⟨[], by simp [submitted, acquired, hw, getElem?_set_self_of_some _ hw, hpc],
      fun _ => rfl⟩
  | dequeue i w task rest hw hpc hq =>
    exact ⟨[], by simp [submitted, acquired, hw, getElem?_set_self_of_some _ hw, hpc, hq],
      fun _ => rfl⟩
  | run i w task hw hpc =>
    exact ⟨[], by simp [submitted, acquired, hw, getElem?_set_self_of_some _ hw, hpc],
      fun _ => rfl⟩

/-- A destroyed pool has no queue, in every state that a step reaches from a state where
this holds. -/
theorem Tidy_step (st : ThreadPool σ ε α) (a : Action σ ε α) (st1 : ThreadPool σ ε α)
    (h : Tidy st) (hs : Step st a st1) : Tidy st1 := by
  cases hs with
  | add f hfree => exact fun hc => absurd hc (by simp)
  | stop hfree => exact fun hc => absurd hc (afterJoin_false_ne _ _)
  | joinRaise k d w hc hw hj => exact fun hc => absurd hc (by simp)
  | joinOk k d w hc hw hj he =>
    rcases unwind_cases
      ({ st with workers_ := st.workers_.set k { w with joinable := false }
                 caller := afterJoin (k + 1) st.workers_.length d } : ThreadPool σ ε α)
      with ⟨h1, _⟩ | ⟨_, h2, _⟩
    · exact fun hc => absurd hc h1
    · exact fun _ => h2
  | destroyStop hfree hs =>
    rcases unwind_cases
      ({ st with stop_ := true
                 caller := afterJoin 0 st.workers_.length true } : ThreadPool σ ε α)
      with ⟨h1, _⟩ | ⟨_, h2, _⟩
    · exact fun hc => absurd hc h1
    · exact fun _ => h2
  | destroySkip hfree hs => exact fun _ => rfl
  | loopEnter i w hw hpc hs => exact fun hc => h hc
  | loopExit i w hw hpc hs => exact fun hc => h hc
  | waitExit i w hw hpc hs hq => exact fun hc => h hc
  | dequeue i w task rest hw hpc hq =>
    intro hc
    have := h hc
    rw [hq] at this
    exact absurd this (by simp)
  | run i w task hw hpc => exact fun hc => h hc

/-- Once the pool is destroyed nothing is enqueued or dequeued any more. -/
theorem quiet_step {st st1 : ThreadPool σ ε α} {a : Action σ ε α}
    (hc : st.caller = .destroyed) (hq : st.tasks_ = []) (hs : Step st a st1) :
    submitted a st st1 = [] ∧ acquired a st st1 = [] ∧ st1.caller = .destroyed ∧
      st1.tasks_ = [] := by
  cases hs with
  | add f hfree => simp [hc, Caller.free] at hfree
  | stop hfree => simp [hc, Caller.free] at hfree
  | joinRaise k d w hc1 hw hj => simp [hc] at hc1
  | joinOk k d w hc1 hw hj he => simp [hc] at hc1
  | destroyStop hfree hs => simp [hc, Caller.free] at hfree
  | destroySkip hfree hs => simp [hc, Caller.free] at hfree
  | loopEnter i w hw hpc hs =>
    exact ⟨rfl, by simp [acquired, hw, getElem?_set_self_of_some _ hw, hpc], hc, hq⟩
  | loopExit i w hw hpc hs =>
    exact ⟨rfl, by simp [acquired, hw, getElem?_set_self_of_some _ hw, hpc], hc, hq⟩
  | waitExit i w hw hpc hs hq1 =>
    exact ⟨rfl, by simp [acquired, hw, getElem?_set_self_of_some _ hw, hpc], hc, hq⟩
  | dequeue i w task rest hw hpc hq1 =>
    rw [hq] at hq1
    simp at hq1
  | run i w task hw hpc =>
    exact ⟨rfl, by simp [acquired, hw, getElem?_set_self_of_some _ hw, hpc], hc, hq⟩

theorem quiet_exec (tr : List (Action σ ε α)) (st st2 : ThreadPool σ ε α)
    (hc : st.caller = .destroyed) (hq : st.tasks_ = []) (h : exec tr st = some st2) :
    enqueueLog tr st = [] ∧ dequeueLog tr st = [] ∧ st2.caller = .destroyed ∧
      st2.tasks_ = [] := by
  induction tr generalizing st with
  | nil =>
    simp [exec] at h
    subst h
    exact ⟨rfl, rfl, hc, hq⟩
  | cons a tr ih =>
    obtain ⟨st1, h1, h2⟩ := (exec_cons a tr st st2).1 h
    obtain ⟨hs, ha, hc1, hq1⟩ := quiet_step hc hq (Step_of_step h1)
    obtain ⟨he, hd, hc2, hq2⟩ := ih st1 hc1 hq1 h2
    simp only [enqueueLog, dequeueLog, h1]
    exact ⟨by rw [hs, he]; rfl, by rw [ha, hd]; rfl, hc2, hq2⟩

/-- Along a schedule: what was queued and what was enqueued is what was dequeued, what is
queued now, and what was destroyed with the queue at the end of the destructor. -/
theorem fifo_exec (tr : List (Action σ ε α)) (st st2 : ThreadPool σ ε α)
    (ht : Tidy st) (h : exec tr st = some st2) :
    ∃ dropped, st.tasks_ ++ enqueueLog tr st = dequeueLog tr st ++ st2.tasks_ ++ dropped ∧
      (st2.caller ≠ .destroyed → dropped = []) := by
  induction tr generalizing st with
  | nil =>
    simp [exec] at h
    subst h
    exact ⟨[], by simp [enqueueLog, dequeueLog], fun _ => rfl⟩
  | cons a tr ih =>
    obtain ⟨st1, h1, h2⟩ := (exec_cons a tr st st2).1 h
    have hS := Step_of_step h1
    obtain ⟨d1, hstep, hd1⟩ := fifo_step hS
    have ht1 := Tidy_step st a st1 ht hS
    simp only [enqueueLog, dequeueLog, h1]
    by_cases hc1 : st1.caller = .destroyed
    · obtain ⟨he, hd, hc2, hq2⟩ := quiet_exec tr st1 st2 hc1 (ht1 hc1) h2
      refine ⟨d1, ?_, fun hne => absurd hc2 hne⟩
      rw [he, hd, hq2, List.append_nil, List.append_nil, List.append_nil, hstep, ht1 hc1,
        List.append_nil]
    · obtain ⟨d2, hrest, hd2⟩ := ih st1 ht1 h2
      refine ⟨d2, ?_, hd2⟩
      rw [← List.append_assoc, hstep, hd1 hc1, List.append_nil, List.append_assoc, hrest]
      simp only [List.append_assoc]

/-- What one step enqueues: the callable of the `add`, on the next channel. -/
theorem submitted_step {st st1 : ThreadPool σ ε α} {a : Action σ ε α} (hs : Step st a st1) :
    (submitted a st st1).map (fun t => t.fn) = addedCallables [a] ∧
      (submitted a st st1).map (fun t => t.chan) =
        List.range' st.nchan (submitted a st st1).length ∧
      st1.nchan = st.nchan + (submitted a st st1).length := by
  cases hs <;> simp [submitted, addedCallables, unwind_nchan, ThreadPool.destroyMembers]

omit [BrokenPromise ε] in
theorem addedCallables_cons (a : Action σ ε α) (tr : List (Action σ ε α)) :
    addedCallables (a :: tr) = addedCallables [a] ++ addedCallables tr := by
  cases a <;> simp [addedCallables]

theorem enqueueLog_exec (tr : List (Action σ ε α)) (st st2 : ThreadPool σ ε α)
    (h : exec tr st = some st2) :
    (enqueueLog tr st).map (fun t => t.fn) = addedCallables tr ∧
      (enqueueLog tr st).map (fun t => t.chan) =
        List.range' st.nchan (enqueueLog tr st).length ∧
      st2.nchan = st.nchan + (enqueueLog tr st).length := by
  induction tr generalizing st with
  | nil =>
    simp [exec] at h
    subst h
    simp [enqueueLog, addedCallables]
  | cons a tr ih =>
    obtain ⟨st1, h1, h2⟩ := (exec_cons a tr st st2).1 h
    obtain ⟨hf, hc, hn⟩ := submitted_step (Step_of_step h1)
    obtain ⟨hf2, hc2, hn2⟩ := ih st1 h2
    simp only [enqueueLog, h1, List.map_append, List.length_append]
    refine ⟨?_, ?_, by omega⟩
    · rw [addedCallables_cons, hf, hf2]
    · rw [hc, hc2, hn, List.range'_append_1, Nat.add_comm (enqueueLog tr st1).length]

/-! ## Pending tasks and their channels -/

omit [BrokenPromise ε] in
/-- Replacing worker `i` replaces what it holds, and nothing else, in the held tasks. -/
theorem heldBy_set {ws : List (Worker σ ε α)} {i : Nat} {w : Worker σ ε α}
    (hw : ws[i]? = some w) :
    ∃ others, (heldBy ws).Perm (w.pc.held ++ others) ∧
      ∀ w1, (heldBy (ws.set i w1)).Perm (w1.pc.held ++ others) := by
  induction ws generalizing i with
  | nil => simp at hw
  | cons x xs ih =>
    cases i with
    | zero =>
      simp at hw
      subst hw
      exact ⟨heldBy xs, List.Perm.refl _, fun w1 => List.Perm.refl _⟩
    | succ i =>
      simp at hw
      obtain ⟨others, h1, h2⟩ := ih hw
      refine ⟨x.pc.held ++ others, ?_, fun w1 => ?_⟩
      · show (x.pc.held ++ heldBy xs).Perm (w.pc.held ++ (x.pc.held ++ others))
        refine (List.Perm.append_left _ h1).trans ?_
        rw [← List.append_assoc, ← List.append_assoc]
        exact List.Perm.append_right _ List.perm_append_comm
      · show (x.pc.held ++ heldBy (xs.set i w1)).Perm (w1.pc.held ++ (x.pc.held ++ others))
        refine (List.Perm.append_left _ (h2 w1)).trans ?_
        rw [← List.append_assoc, ← List.append_assoc]
        exact List.Perm.append_right _ List.perm_append_comm

omit [BrokenPromise ε] in
/-- A step of worker `i` that neither takes nor finishes a task keeps the held tasks. -/
theorem heldBy_set_same {ws : List (Worker σ ε α)} {i : Nat} {w : Worker σ ε α}
    (w1 : Worker σ ε α) (hw : ws[i]? = some w) (hh : w1.pc.held = w.pc.held) :
    (heldBy (ws.set i w1)).Perm (heldBy ws) := by
  obtain ⟨others, h1, h2⟩ := heldBy_set hw
  have := h2 w1
  rw [hh] at this
  exact this.trans h1.symm

omit [BrokenPromise ε] in
/-- The worker that dequeues `task` now holds it. -/
theorem heldBy_set_take {ws : List (Worker σ ε α)} {i : Nat} {w : Worker σ ε α}
    (task : PackagedTask σ ε α) (hw : ws[i]? = some w) (hh : w.pc.held = []) :
    (heldBy (ws.set i { w with pc := .running task })).Perm (task :: heldBy ws) := by
  obtain ⟨others, h1, h2⟩ := heldBy_set hw
  have := h2 { w with pc := .running task }
  rw [hh] at h1
  exact this.trans (List.Perm.cons _ h1.symm)

omit [BrokenPromise ε] in
/-- The worker that has run `task` no longer holds it. -/
theorem heldBy_set_done {ws : List (Worker σ ε α)} {i : Nat} {w : Worker σ ε α}
    (task : PackagedTask σ ε α) (hw : ws[i]? = some w) (hpc : w.pc = .running task) :
    (heldBy ws).Perm (task :: heldBy (ws.set i { w with pc := .loopHead })) := by
  obtain ⟨others, h1, h2⟩ := heldBy_set hw
  have := h2 { w with pc := .loopHead }
  rw [hpc] at h1
  exact h1.trans (List.Perm.cons _ this.symm)

omit [BrokenPromise ε] in
/-- The pending tasks before and after the call of `task` by worker `i`. -/
theorem pending_run (st : ThreadPool σ ε α) {i : Nat} {w : Worker σ ε α}
    (task : PackagedTask σ ε α) (m : σ) (ch : Nat → Option (Except ε α))
    (hw : st.workers_[i]? = some w) (hpc : w.pc = .running task) :
    (pending st).Perm
      (task :: pending { st with mem := m, chans := ch,
                                 workers_ := st.workers_.set i { w with pc := .loopHead } }) := by
  unfold pending
  refine (List.Perm.append_left _ (heldBy_set_done task hw hpc)).trans ?_
  exact List.perm_middle

/-- The end of a client step on the pending tasks and the channels. -/
theorem pending_unwind (st : ThreadPool σ ε α) :
    ∃ dropped, (pending st).Perm (dropped ++ pending (ThreadPool.unwind st)) ∧
      (ThreadPool.unwind st).nchan = st.nchan ∧
      (ThreadPool.unwind st).chans = abandonAll dropped st.chans := by
  rcases unwind_cases st with ⟨_, h2⟩ | ⟨_, h2, h3⟩
  · rw [h2]
    exact ⟨[], List.Perm.refl _, rfl, rfl⟩
  · refine ⟨st.tasks_, ?_, unwind_nchan st, h3⟩
    unfold pending
    rw [h2, unwind_workers]
    exact List.Perm.refl _

/-- The three ways in which a step acts on the pending tasks and the channels: it submits a
task on the next channel; or it calls no task, and destroys some pending tasks uncalled
(none, unless the step is the end of the destructor); or it calls a pending task and makes
that task's channel ready. -/
theorem pending_step {st st1 : ThreadPool σ ε α} {a : Action σ ε α} (hs : Step st a st1) :
    (∃ f, (pending st1).Perm (⟨st.nchan, f⟩ :: pending st) ∧ st1.nchan = st.nchan + 1 ∧
        st1.chans = st.chans) ∨
    (∃ dropped, (pending st).Perm (dropped ++ pending st1) ∧ st1.nchan = st.nchan ∧
        st1.chans = abandonAll dropped st.chans) ∨
    (∃ task, (pending st).Perm (task :: pending st1) ∧ st1.nchan = st.nchan ∧
        st1.chans = Function.update st.chans task.chan (some (task.fn st.mem).2)) := by
  cases hs with
  | add f hfree =>
    refine Or.inl ⟨f, ?_, rfl, rfl⟩
    unfold pending
    simp only [List.append_assoc]
    exact (List.perm_middle).trans (by simp)
  | stop hfree => exact Or.inr (Or.inl ⟨[], List.Perm.refl _, rfl, rfl⟩)
  | joinRaise k d w hc hw hj => exact Or.inr (Or.inl ⟨[], List.Perm.refl _, rfl, rfl⟩)
  | joinOk k d w hc hw hj he =>
    obtain ⟨dropped, hp, hn, hch⟩ := pending_unwind
      ({ st with workers_ := st.workers_.set k { w with joinable := false }
                 caller := afterJoin (k + 1) st.workers_.length d } : ThreadPool σ ε α)
    refine Or.inr (Or.inl ⟨dropped, ?_, hn, hch⟩)
    have h1 : (pending st).Perm
        (pending ({ st with workers_ := st.workers_.set k { w with joinable := false }
                            caller := afterJoin (k + 1) st.workers_.length d } :
          ThreadPool σ ε α)) :=
      (List.Perm.append_left _ (heldBy_set_same { w with joinable := false } hw rfl)).symm
    exact h1.trans hp
  | destroyStop hfree hs =>
    obtain ⟨dropped, hp, hn, hch⟩ := pending_unwind
      ({ st with stop_ := true
                 caller := afterJoin 0 st.workers_.length true } : ThreadPool σ ε α)
    exact Or.inr (Or.inl ⟨dropped, hp, hn, hch⟩)
  | destroySkip hfree hs =>
    exact Or.inr (Or.inl ⟨st.tasks_, List.Perm.refl _, rfl, rfl⟩)
  | loopEnter i w hw hpc hs =>
    exact Or.inr (Or.inl ⟨[], (List.Perm.append_left _
      (heldBy_set_same _ hw (by simp [hpc, WorkerPc.held]))).symm, rfl, rfl⟩)
  | loopExit i w hw hpc hs =>
    exact Or.inr (Or.inl ⟨[], (List.Perm.append_left _
      (heldBy_set_same _ hw (by simp [hpc, WorkerPc.held]))).symm, rfl, rfl⟩)
  | waitExit i w hw hpc hs hq =>
    exact Or.inr (Or.inl ⟨[], (List.Perm.append_left _
      (heldBy_set_same _ hw (by simp [hpc, WorkerPc.held]))).symm, rfl, rfl⟩)
  | dequeue i w task rest hw hpc hq =>
    refine Or.inr (Or.inl ⟨[], List.Perm.symm ?_, rfl, rfl⟩)
    show (pending _).Perm (pending st)
    unfold pending
    rw [hq]
    refine (List.Perm.append_left _
      (heldBy_set_take task hw (by simp [hpc, WorkerPc.held]))).trans ?_
    exact List.perm_middle
  | run i w task hw hpc =>
    exact Or.inr (Or.inr ⟨task, pending_run st task _ _ hw hpc, rfl, rfl⟩)

omit [BrokenPromise ε] in
theorem ChanInv_init (size : Int) (mem : σ) :
    ChanInv (ThreadPool.init size mem : ThreadPool σ ε α) := by
  have hh : ∀ n : Nat, heldBy (List.replicate n (⟨.loopHead, true⟩ : Worker σ ε α)) = [] := by
    intro n
    induction n with
    | zero => rfl
    | succ n ih => simp [List.replicate_succ, heldBy, WorkerPc.held, ih]
  simp [ChanInv, pending, ThreadPool.init, ThreadPool.ctor, hh]

theorem ChanInv_step (st : ThreadPool σ ε α) (a : Action σ ε α) (st1 : ThreadPool σ ε α)
    (h : ChanInv st) (hs : Step st a st1) : ChanInv st1 := by
  obtain ⟨hnd, hlt, hnone⟩ := h
  rcases pending_step hs with ⟨f, hp, hn, hch⟩ | ⟨dropped, hp, hn, hch⟩ |
    ⟨task, hp, hn, hch⟩
  · refine ⟨?_, ?_, ?_⟩
    · rw [(hp.map _).nodup_iff]
      simp only [List.map_cons, List.nodup_cons, List.mem_map, not_exists, not_and]
      refine ⟨fun t ht he => ?_, hnd⟩
      have := hlt t ht
      omega
    · intro t ht
      rcases List.mem_cons.1 (hp.mem_iff.1 ht) with he | hm
      · rw [he, hn]
        exact Nat.lt_succ_self _
      · have := hlt t hm
        omega
    · intro c hc
      rw [hch]
      exact hnone c (by omega)
  · rw [(hp.map _).nodup_iff, List.map_append] at hnd
    refine ⟨(List.nodup_append.1 hnd).2.1, ?_, ?_⟩
    · intro t ht
      rw [hn]
      exact hlt t (hp.mem_iff.2 (List.mem_append_right _ ht))
    · intro c hc
      rw [hch, abandonAll_other]
      · exact hnone c (by omega)
      · intro t ht he
        have := hlt t (hp.mem_iff.2 (List.mem_append_left _ ht))
        omega
  · rw [(hp.map _).nodup_iff] at hnd
    simp only [List.map_cons, List.nodup_cons] at hnd
    refine ⟨hnd.2, ?_, ?_⟩
    · intro t ht
      rw [hn]
      exact hlt t (hp.mem_iff.2 (List.mem_cons_of_mem _ ht))
    · intro c hc
      have htl := hlt task (hp.mem_iff.2 (List.mem_cons_self _ _))
      rw [hch, Function.update_noteq (by omega)]
      exact hnone c (by omega)

/-- The channel discipline holds in every state that a schedule reaches from a new pool. -/
theorem ChanInv_exec (size : Int) (mem : σ) (tr : List (Action σ ε α))
    (st : ThreadPool σ ε α) (h : exec tr (ThreadPool.init size mem) = some st) :
    ChanInv st :=
  exec_induct ChanInv ChanInv_step tr _ st (ChanInv_init size mem) h

theorem Carries_step (c : Nat) (f : Callable σ ε α) (st : ThreadPool σ ε α)
    (a : Action σ ε α) (st1 : ThreadPool σ ε α) (h : Carries c f st) (hs : Step st a st1) :
    Carries c f st1 := by
  obtain ⟨hlt, hall⟩ := h
  rcases pending_step hs with ⟨g, hp, hn, _⟩ | ⟨dropped, hp, hn, _⟩ | ⟨task, hp, hn, _⟩
  · refine ⟨by omega, fun t ht hc => ?_⟩
    rcases List.mem_cons.1 (hp.mem_iff.1 ht) with he | hm
    · rw [he] at hc
      simp at hc
      omega
    · exact hall t hm hc
  · exact ⟨by omega, fun t ht hc => hall t (hp.mem_iff.2 (List.mem_append_right _ ht)) hc⟩
  · exact ⟨by omega, fun t ht hc => hall t (hp.mem_iff.2 (List.mem_cons_of_mem _ ht)) hc⟩

theorem Settled_step (c : Nat) (v : Except ε α) (st : ThreadPool σ ε α)
    (a : Action σ ε α) (st1 : ThreadPool σ ε α) (h : Settled c v st) (hs : Step st a st1) :
    Settled c v st1 := by
  obtain ⟨hv, hlt, hall⟩ := h
  rcases pending_step hs with ⟨g, hp, hn, hch⟩ | ⟨dropped, hp, hn, hch⟩ |
    ⟨task, hp, hn, hch⟩
  · refine ⟨by rw [hch]; exact hv, by omega, fun t ht => ?_⟩
    rcases List.mem_cons.1 (hp.mem_iff.1 ht) with he | hm
    · rw [he]
      simp
      omega
    · exact hall t hm
  · exact ⟨by rw [hch]; exact abandonAll_ready _ _ _ _ hv, by omega,
      fun t ht => hall t (hp.mem_iff.2 (List.mem_append_right _ ht))⟩
  · have hne := hall task (hp.mem_iff.2 (List.mem_cons_self _ _))
    refine ⟨?_, by omega, fun t ht => hall t (hp.mem_iff.2 (List.mem_cons_of_mem _ ht))⟩
    rw [hch, Function.update_noteq (fun e => hne e.symm)]
    exact hv

omit [BrokenPromise ε] in
theorem ne_destroyed_of_free {st : ThreadPool σ ε α} (h : st.caller.free = true) :
    st.caller ≠ .destroyed := by
  intro hc
  simp [hc, Caller.free] at h

theorem Frozen_step (q : List (PackagedTask σ ε α)) (m : σ) (ch : Nat → Option (Except ε α))
    (st : ThreadPool σ ε α) (a : Action σ ε α) (st1 : ThreadPool σ ε α)
    (h : Frozen q m ch st) (hs : Step st a st1) : Frozen q m ch st1 := by
  obtain ⟨hall, hm, hlive, hdead⟩ := h
  have hex : ∀ (i : Nat) (w : Worker σ ε α), st.workers_[i]? = some w →
      w.pc.isExited = true ∧ w.joinable = false :=
    fun i w hw => hall w (List.mem_iff_getElem?.2 ⟨i, hw⟩)
  cases hs with
  | add f hfree =>
    obtain ⟨⟨later, hq⟩, hch⟩ := hlive (ne_destroyed_of_free hfree)
    exact ⟨hall, hm, fun _ => ⟨⟨later ++ [⟨st.nchan, f⟩], by simp [hq]⟩, hch⟩,
      fun hc => absurd hc (by simp)⟩
  | stop hfree =>
    exact ⟨hall, hm, fun _ => hlive (ne_destroyed_of_free hfree),
      fun hc => absurd hc (afterJoin_false_ne _ _)⟩
  | joinRaise k d w hc hw hj =>
    exact ⟨hall, hm, fun _ => hlive (by simp [hc]), fun hc1 => absurd hc1 (by simp)⟩
  | joinOk k d w hc hw hj he =>
    have := (hex k w hw).2
    simp [hj] at this
  | destroyStop hfree hs =>
    obtain ⟨⟨later, hq⟩, hch⟩ := hlive (ne_destroyed_of_free hfree)
    have hall1 : AllJoined (ThreadPool.unwind
        ({ st with stop_ := true
                   caller := afterJoin 0 st.workers_.length true } : ThreadPool σ ε α)) := by
      unfold AllJoined
      rw [unwind_workers]
      exact hall
    refine ⟨hall1, by rw [unwind_mem]; exact hm, ?_, ?_⟩
    · intro hc1
      rw [unwind_caller] at hc1
      rw [unwind_of_ne hc1]
      exact ⟨⟨later, hq⟩, hch⟩
    · intro hc1
      rw [unwind_caller] at hc1
      rw [unwind_of_eq hc1]
      exact ⟨rfl, later, by simp [ThreadPool.destroyMembers, hq, hch]⟩
  | destroySkip hfree hs =>
    obtain ⟨⟨later, hq⟩, hch⟩ := hlive (ne_destroyed_of_free hfree)
    exact ⟨hall, hm, fun hc => absurd rfl hc,
      fun _ => ⟨rfl, later, by simp [ThreadPool.destroyMembers, hq, hch]⟩⟩
  | loopEnter i w hw hpc hs =>
    have := (hex i w hw).1
    simp [hpc, WorkerPc.isExited] at this
  | loopExit i w hw hpc hs =>
    have := (hex i w hw).1
    simp [hpc, WorkerPc.isExited] at this
  | waitExit i w hw hpc hs hq =>
    have := (hex i w hw).1
    simp [hpc, WorkerPc.isExited] at this
  | dequeue i w task rest hw hpc hq =>
    have := (hex i w hw).1
    simp [hpc, WorkerPc.isExited] at this
  | run i w task hw hpc =>
    have := (hex i w hw).1
    simp [hpc, WorkerPc.isExited] at this

/-! ## The claims -/

/-- C1, evaluated on the code. Pool of size 1, one job, and the schedule in which `stop()`
sets `stop_` before the worker evaluates `while (!stop_)` for the first time: `stop()` returns
(client idle, worker returned and joined) with the job still in the queue, its body not run
(memory 0) and its future not ready. Likewise for main.cpp (100 workers, jobs 1..100):
`stop()` returns with 100 jobs in the queue and the accumulator at 0, not 5050. -/
theorem stop_returns_with_jobs_queued :
    ((exec [.add (mainJob 1), .stop, .worker 0, .join] (ThreadPool.init 1 0)).map
        fun st => st.view) = some ([((3, none), false)], [0], true, .idle) ∧
    ((exec [.add (mainJob 1), .stop, .worker 0, .join] (ThreadPool.init 1 0)).map
        fun st => (st.mem, (st.chans 0).isSome)) = some (0, false) ∧
    ((exec mainSchedule (ThreadPool.init 100 0)).map
        fun st => (st.caller, allJoined st, st.tasks_.length, st.mem)) =
      some (.idle, true, 100, 0) := by
  refine ⟨by decide, by decide, ?_⟩
  set_option maxRecDepth 1000000 in decide

/-- C2. In every execution from a new pool: `add(f)` returns the future of a channel that is
new (the next one to allocate, not ready, used by no pending task). Whenever a worker later
holds a task on that channel, the task carries `f`; the call of the task is enabled, writes
to no other channel, and from then on `get()` on the future yields what `f` returned or
threw when the worker ran it. -/
theorem future_gets_value (size : Int) (mem : σ) (tr1 tr2 : List (Action σ ε α))
    (s1 s2 s2a s3 : ThreadPool σ ε α) (f : Callable σ ε α) (fut : Future)
    (i : Nat) (w : Worker σ ε α) (task : PackagedTask σ ε α)
    (h1 : exec tr1 (ThreadPool.init size mem) = some s1)
    (hfut : ThreadPool.add f s1 = .ok (fut, s2a))
    (hadd : step (.add f) s1 = some s2)
    (h2 : exec tr2 s2 = some s3)
    (hw : s3.workers_[i]? = some w) (hpc : w.pc = .running task)
    (hchan : task.chan = fut.chan) :
    (fut.chan = s1.nchan ∧ s2.nchan = s1.nchan + 1 ∧ Future.get fut s2 = none ∧
      ∀ t ∈ pending s1, t.chan ≠ fut.chan) ∧
    task.fn = f ∧
    ∃ s4, step (.worker i) s3 = some s4 ∧
      (∀ c, c ≠ fut.chan → s4.chans c = s3.chans c) ∧
      ∀ tr3 s5, exec tr3 s4 = some s5 → Future.get fut s5 = some (f s3.mem).2 := by
  have hci1 := ChanInv_exec size mem tr1 s1 h1
  have hfc : fut.chan = s1.nchan := by
    simp [ThreadPool.add] at hfut
    rw [← hfut.1]
  have hS := Step_of_step hadd
  have hci2 := ChanInv_step s1 _ s2 hci1 hS
  have hcar2 : Carries fut.chan f s2 := by
    cases hS with
    | add _ hfree =>
      refine ⟨by rw [hfc]; exact Nat.lt_succ_self _, fun t ht hc => ?_⟩
      simp only [pending, List.append_assoc, List.mem_append, List.mem_singleton] at ht
      rcases ht with ht | ht | ht
      · have := hci1.2.1 t (List.mem_append_left _ ht)
        omega
      · rw [ht]
      · have := hci1.2.1 t (List.mem_append_right _ ht)
        omega
  have hn2 : s2.nchan = s1.nchan + 1 := by
    cases hS with
    | add _ hfree => rfl
  have hci3 := exec_induct ChanInv ChanInv_step tr2 s2 s3 hci2 h2
  have hcar3 := exec_induct (Carries fut.chan f) (Carries_step fut.chan f) tr2 s2 s3 hcar2 h2
  have hperm := pending_run s3 task (task.fn s3.mem).1
    (Function.update s3.chans task.chan (some (task.fn s3.mem).2)) hw hpc
  have hfn : task.fn = f :=
    hcar3.2 task (hperm.mem_iff.2 (List.mem_cons_self _ _)) hchan
  refine ⟨⟨hfc, hn2, ?_, fun t ht he => ?_⟩, hfn, _, step_of_Step (Step.run s3 i w task hw hpc),
    fun c hc => ?_, fun tr3 s5 h5 => ?_⟩
  · have hch : s2.chans = s1.chans := by
      cases hS with
      | add _ hfree => rfl
    unfold Future.get
    rw [hch]
    exact hci1.2.2 _ (by omega)
  · have := hci1.2.1 t ht
    omega
  · simp only
    rw [Function.update_noteq (by rw [hchan]; exact hc)]
  · have hnd := hci3.1
    rw [(hperm.map _).nodup_iff] at hnd
    simp only [List.map_cons, List.nodup_cons, List.mem_map, not_exists, not_and] at hnd
    have hset : Settled fut.chan (f s3.mem).2
        { s3 with mem := (task.fn s3.mem).1
                  chans := Function.update s3.chans task.chan (some (task.fn s3.mem).2)
                  workers_ := s3.workers_.set i { w with pc := .loopHead } } := by
      refine ⟨?_, hcar3.1, fun t ht he => hnd.1 t ht (by rw [he, hchan])⟩
      simp only
      rw [hchan, hfn, Function.update_same]
    exact (exec_induct (Settled fut.chan (f s3.mem).2) (Settled_step _ _) tr3 _ s5 hset h5).1

/-- C2, at a concrete input: a pool of one worker, `add(sevenJob)`, the worker dequeues the
task and runs it; then `get()` yields 7. -/
theorem future_gets_value_witness :
    exec [] (ThreadPool.init 1 0) = some onePool ∧
    ThreadPool.add sevenJob onePool = .ok (⟨0⟩, { sevenQueued with caller := .idle }) ∧
    step (.add sevenJob) onePool = some sevenQueued ∧
    exec [.worker 0, .worker 0] sevenQueued = some sevenHeld ∧
    ∃ s4, step (.worker 0) sevenHeld = some s4 ∧
      ∀ tr3 s5, exec tr3 s4 = some s5 → Future.get ⟨0⟩ s5 = some (.ok 7) :=
  ⟨rfl, rfl, rfl, rfl,
    (future_gets_value 1 0 [] [.worker 0, .worker 0] onePool sevenQueued
      { sevenQueued with caller := .idle } sevenHeld sevenJob ⟨0⟩ 0 _ ⟨0, sevenJob⟩
      rfl rfl rfl rfl rfl rfl rfl).2.2.imp fun _ h => ⟨h.1, h.2.2⟩⟩

/-- C3. Along every schedule from a new pool the tasks dequeued by workers so far are an
initial segment of the tasks enqueued so far, and the rest of the enqueued tasks is exactly
the queue, followed, once the pool is destroyed, by the tasks that were destroyed with the
queue. The enqueued tasks are the callables of the `add` calls in call order, on the
channels 0, 1, 2, ..., so they are pairwise different. -/
theorem dequeue_order_is_enqueue_order (size : Int) (mem : σ) (tr : List (Action σ ε α))
    (st : ThreadPool σ ε α) (h : exec tr (ThreadPool.init size mem) = some st) :
    dequeueLog tr (ThreadPool.init size mem) <+: enqueueLog tr (ThreadPool.init size mem) ∧
    (∃ dropped, enqueueLog tr (ThreadPool.init size mem) =
        dequeueLog tr (ThreadPool.init size mem) ++ st.tasks_ ++ dropped ∧
      (st.caller ≠ .destroyed → dropped = [])) ∧
    (enqueueLog tr (ThreadPool.init size mem)).map (fun t => t.fn) = addedCallables tr ∧
    (enqueueLog tr (ThreadPool.init size mem)).map (fun t => t.chan) =
      List.range (enqueueLog tr (ThreadPool.init size mem)).length := by
  have ht : Tidy (ThreadPool.init size mem : ThreadPool σ ε α) :=
    fun hc => absurd hc (by simp [ThreadPool.init, ThreadPool.ctor])
  obtain ⟨dropped, hf, hd⟩ := fifo_exec tr _ st ht h
  have hq : (ThreadPool.init size mem : ThreadPool σ ε α).tasks_ = [] := rfl
  have hn : (ThreadPool.init size mem : ThreadPool σ ε α).nchan = 0 := rfl
  rw [hq, List.nil_append] at hf
  obtain ⟨h1, h2, _⟩ := enqueueLog_exec tr _ st h
  refine ⟨⟨st.tasks_ ++ dropped, by rw [hf, List.append_assoc]⟩, ⟨dropped, hf, hd⟩, h1, ?_⟩
  rw [h2, hn, List.range_eq_range']

/-- C3, at a concrete input: a job is added to a pool of one worker, which dequeues it. -/
theorem dequeue_order_is_enqueue_order_witness :
    exec [.add sevenJob, .worker 0, .worker 0] (ThreadPool.init 1 0) = some sevenHeld ∧
    dequeueLog [.add sevenJob, .worker 0, .worker 0] (ThreadPool.init 1 0) <+:
      enqueueLog [.add sevenJob, .worker 0, .worker 0] (ThreadPool.init 1 0) :=
  ⟨rfl, (dequeue_order_is_enqueue_order 1 0 [.add sevenJob, .worker 0, .worker 0]
    sevenHeld rfl).1⟩

/-- C4 as stated fails: on a pool of one worker on which `stop()` has returned (client
idle, worker returned and joined), `add` raises no error and the queue grows by the job. -/
theorem add_after_stop_is_accepted :
    exec [.stop, .worker 0, .join] (ThreadPool.init 1 0) = some oneStopped ∧
    ((ThreadPool.add sevenJob oneStopped).toOption.map
        fun r => (r.1, r.2.tasks_.map fun t => t.chan)) = some (⟨0⟩, [0]) ∧
    ThreadPool.add sevenJob oneStopped ≠ .error .PoolClosedError :=
  ⟨rfl, by decide, by simp [ThreadPool.add]⟩

/-- C4, amended. In every state that a schedule reaches from a new pool in which `stop_` is
set and the client is outside every member function (a `stop()` has returned), every worker
has returned and been joined, and `add` raises no error: it returns a future on the next
channel and puts the job at the back of the queue. Along every schedule that follows, every
worker stays joined and the client memory does not change: the job is never run. While the
pool is alive the job stays in the queue behind the jobs that were there and its future is
not ready; once the pool is destroyed the queue is gone and `get()` on the future yields the
`broken_promise` error. -/
theorem add_after_stop_enqueues (size : Int) (mem : σ) (tr : List (Action σ ε α))
    (st : ThreadPool σ ε α) (f : Callable σ ε α)
    (hreach : exec tr (ThreadPool.init size mem) = some st)
    (hstop : st.stop_ = true) (hfree : st.caller.free = true) :
    AllJoined st ∧
    ThreadPool.add f st =
      .ok (⟨st.nchan⟩,
        { st with nchan := st.nchan + 1, tasks_ := st.tasks_ ++ [⟨st.nchan, f⟩] }) ∧
    ∃ st1, step (.add f) st = some st1 ∧ st1.tasks_ = st.tasks_ ++ [⟨st.nchan, f⟩] ∧
      ∀ tr2 st2, exec tr2 st1 = some st2 →
        AllJoined st2 ∧ st2.mem = st.mem ∧
        (st2.caller ≠ .destroyed →
          (∃ later, st2.tasks_ = st.tasks_ ++ ⟨st.nchan, f⟩ :: later) ∧
            Future.get ⟨st.nchan⟩ st2 = none) ∧
        (st2.caller = .destroyed →
          st2.tasks_ = [] ∧
            Future.get ⟨st.nchan⟩ st2 = some (.error BrokenPromise.broken_promise)) := by
  have hinv := Inv_exec size mem tr st hreach
  have hci := ChanInv_exec size mem tr st hreach
  have hall : AllJoined st := (allJoined_iff st).2 ((Inv_free hinv hfree).1 hstop)
  refine ⟨hall, rfl, _, step_of_Step (Step.add st f hfree), rfl, fun tr2 st2 h2 => ?_⟩
  have hfro : Frozen (st.tasks_ ++ [⟨st.nchan, f⟩]) st.mem st.chans
      { st with nchan := st.nchan + 1, tasks_ := st.tasks_ ++ [⟨st.nchan, f⟩],
                caller := .idle } :=
    ⟨hall, rfl, fun _ => ⟨⟨[], by simp⟩, rfl⟩, fun hc => absurd hc (by simp)⟩
  obtain ⟨ha, hm, hlive, hdead⟩ := exec_induct _ (Frozen_step _ _ _) tr2 _ st2 hfro h2
  have hnone : st.chans st.nchan = none := hci.2.2 _ (Nat.le_refl _)
  refine ⟨ha, hm, fun hc => ?_, fun hc => ?_⟩
  · obtain ⟨⟨later, hl⟩, hch⟩ := hlive hc
    refine ⟨⟨later, by simp [hl]⟩, ?_⟩
    unfold Future.get
    rw [hch]
    exact hnone
  · obtain ⟨hq, later, hch⟩ := hdead hc
    refine ⟨hq, ?_⟩
    unfold Future.get
    rw [hch]
    exact abandonAll_mem _ _ ⟨st.nchan, f⟩ (by simp) hnone

/-- C4 amended, at a concrete input: the pool of one worker after `stop()` has returned;
`add(sevenJob)` and then the destruction of the pool leave the future with
`broken_promise`. -/
theorem add_after_stop_enqueues_witness :
    exec [.stop, .worker 0, .join] (ThreadPool.init 1 0) = some oneStopped ∧
    oneStopped.stop_ = true ∧ oneStopped.caller.free = true ∧ AllJoined oneStopped ∧
    ((exec [.add sevenJob] oneStopped).map fun st => (st.view, Future.get ⟨0⟩ st)) =
      some (([((3, none), false)], [0], true, .idle), none) ∧
    ((exec [.add sevenJob, .destroy] oneStopped).map fun st => (st.view, Future.get ⟨0⟩ st)) =
      some (([((3, none), false)], [], true, .destroyed), some (.error "broken promise")) :=
  ⟨rfl, rfl, rfl,
    (add_after_stop_enqueues 1 0 [.stop, .worker 0, .join] oneStopped sevenJob
      rfl rfl rfl).1, rfl, rfl⟩

/-- C5. When worker `i` calls a task whose callable throws `e`: the step is enabled, `get()`
on the future of that task yields the exception `e`, the worker is back at the head of its
loop (it has not returned), and the other workers, the queue, `stop_`, the client and every
other channel are unchanged. -/
theorem throwing_job_is_recorded (st : ThreadPool σ ε α) (i : Nat) (w : Worker σ ε α)
    (task : PackagedTask σ ε α) (e : ε) (m : σ)
    (hw : st.workers_[i]? = some w) (hpc : w.pc = .running task)
    (hf : task.fn st.mem = (m, .error e)) :
    ∃ st1, step (.worker i) st = some st1 ∧
      Future.get ⟨task.chan⟩ st1 = some (.error e) ∧
      st1.workers_[i]? = some { w with pc := .loopHead } ∧
      (∀ j, j ≠ i → st1.workers_[j]? = st.workers_[j]?) ∧
      st1.tasks_ = st.tasks_ ∧ st1.stop_ = st.stop_ ∧ st1.caller = st.caller ∧
      ∀ c, c ≠ task.chan → st1.chans c = st.chans c := by
  refine ⟨_, step_of_Step (Step.run st i w task hw hpc), ?_, ?_, ?_, rfl, rfl, rfl, ?_⟩
  · simp [Future.get, hf]
  · exact getElem?_set_self_of_some _ hw
  · intro j hj
    exact List.getElem?_set_ne (fun e => hj e.symm)
  · intro c hc
    simp only
    rw [Function.update_noteq hc]

/-- C5, at a concrete input: the worker of `divState` calls `divJob`. -/
theorem throwing_job_is_recorded_witness :
    divState.workers_[0]? = some ⟨.running ⟨0, divJob⟩, true⟩ ∧
    divJob divState.mem = (0, .error "divide by zero") ∧
    ∃ st1, step (.worker 0) divState = some st1 ∧
      Future.get ⟨0⟩ st1 = some (.error "divide by zero") :=
  ⟨rfl, rfl,
    (throwing_job_is_recorded divState 0 ⟨.running ⟨0, divJob⟩, true⟩ ⟨0, divJob⟩
      "divide by zero" 0 rfl rfl rfl).imp fun _ h => ⟨h.1, h.2.1⟩⟩

/-- C6 as stated fails: `ThreadPool(0)` raises no error; a pool is created. -/
theorem ctor_zero_is_accepted :
    ((ThreadPool.ctor 0 (0 : Int) : Except Error (ThreadPool Int String Int)).toOption.map
        fun st => st.view) = some ([], [], false, .idle) ∧
    (ThreadPool.ctor 0 (0 : Int) : Except Error (ThreadPool Int String Int)) ≠
      .error .ConfigurationError :=
  ⟨by decide, by simp [ThreadPool.ctor]⟩

omit [BrokenPromise ε] in
/-- C6, amended. For size 0 the constructor raises no error: it returns a pool with no
worker thread, an empty queue and a clear `stop_`. -/
theorem ctor_zero_spawns_nothing (mem : σ) :
    (ThreadPool.ctor 0 mem : Except Error (ThreadPool σ ε α)) =
      .ok { workers_ := [], tasks_ := [], stop_ := false, mem := mem,
            chans := fun _ => none, nchan := 0, caller := .idle } := by
  simp [ThreadPool.ctor, spawnCount, SIZE_T_MOD]

/-- C7, evaluated on the code. On a pool of one worker, the first `stop()` returns with the
worker joined; in the second `stop()` the first iteration of the join loop calls `join()` on
that worker again and `std::system_error` is raised. -/
theorem second_stop_raises :
    ((exec [.stop, .worker 0, .join] onePool).map fun st => st.view) =
      some ([((3, none), false)], [], true, .idle) ∧
    ((exec [.stop, .worker 0, .join, .stop] onePool).map fun st => st.view) =
      some ([((3, none), false)], [], true, .joining 0 false) ∧
    ((exec [.stop, .worker 0, .join, .stop, .join] onePool).map fun st => st.view) =
      some ([((3, none), false)], [], true, .raised .system_error) := by
  refine ⟨by decide, by decide, by decide⟩

/-- C8, at a concrete input: destroying a new pool of one worker. -/
theorem destructor_joins_all_witness :
    exec [] (ThreadPool.init 1 0) = some onePool ∧ onePool.caller.free = true ∧
    step .destroy onePool = some (ThreadPool.dtor onePool) :=
  ⟨rfl, rfl, (destructor_joins_all 1 0 [] onePool rfl rfl).1⟩

/-- C9, evaluated on the code. Pool of one worker, two jobs added; the worker dequeues the
first, `stop()` sets the flag, the worker runs the first job and is back at the head of its
loop with the second job in the queue; its next step reads `stop_` and the thread returns,
the second job still in the queue. -/
theorem worker_returns_with_job_queued :
    ((exec [.add (mainJob 1), .add (mainJob 2), .worker 0, .worker 0, .stop, .worker 0]
        (ThreadPool.init 1 0)).map fun st => st.view) =
      some ([((0, none), true)], [1], true, .joining 0 false) ∧
    ((exec [.add (mainJob 1), .add (mainJob 2), .worker 0, .worker 0, .stop, .worker 0,
        .worker 0] (ThreadPool.init 1 0)).map fun st => st.view) =
      some ([((3, none), true)], [1], true, .joining 0 false) := by
  refine ⟨by decide, by decide⟩

omit [BrokenPromise ε] in
/-- C10. The locked block of the worker on queue `q` and flag `s`: if `q` is not empty it
hands back the head and leaves the tail, whatever `s` is; if `q` is empty and `s` is set it
hands back the shutdown signal and leaves the queue empty; if `q` is empty and `s` is clear
it is not enabled. The step of a waiting worker acts accordingly on the pool: it changes
only the queue, never `stop_`. -/
theorem pop_blocking_spec (st : ThreadPool σ ε α) (task : PackagedTask σ ε α)
    (rest : List (PackagedTask σ ε α)) (s : Bool) :
    pop_blocking (task :: rest) s = some (.job task, rest) ∧
    pop_blocking ([] : List (PackagedTask σ ε α)) true = some (.shutdown, []) ∧
    pop_blocking ([] : List (PackagedTask σ ε α)) false = none ∧
    worker_step .waiting { st with tasks_ := task :: rest } =
      some (.running task, { st with tasks_ := rest }) ∧
    worker_step .waiting { st with tasks_ := [], stop_ := true } =
      some (.exited, { st with tasks_ := [], stop_ := true }) ∧
    worker_step .waiting { st with tasks_ := [], stop_ := false } = none := by
  refine ⟨pop_blocking_cons task rest s, pop_blocking_nil_stop, pop_blocking_nil_run,
    ?_, ?_, ?_⟩
  · simp [worker_step, pop_blocking_cons]
  · simp [worker_step, pop_blocking_nil_stop]
  · simp [worker_step, pop_blocking_nil_run]

end wm
